import Mathlib

/-!
Verification of the in-seat transfer core of PKPIntercityGTFS.

This file gives a shallow embedding, in Lean 4, of the in-seat-transfer
pipeline of the repository (`pkpic_gtfs/in_seat_transfers/generate.py`,
`assign_block_id.py`, `fix_timetravel.py`, and the earlier
`pkpic_gtfs/generate_in_seat_transfers.py`), and proves or refutes the
behavioural claims about it.

Modelling conventions:
* Python `dict`s are modelled as insertion-ordered association lists
  (`List (κ × ν)`); `setdefault`, `pop`, `popitem` are modelled with their
  CPython (3.7+) semantics: first binding wins on lookup, `popitem`
  removes the most recently inserted entry.
* Python `frozenset[str]` is modelled as `Finset String`.
* Python exceptions are modelled with `Option`/`Except`; a `none`/`.error`
  result marks the point where the Python code would raise.
* The relational store is modelled as association lists from trip id to
  the trip's rows.
-/

namespace PKPIC

/-- TripSlice: a trip with a subset of its stop-times, from
`from_stop_sequence` to `to_stop_sequence` inclusive (`none` = end of trip).
Mirrors `TripSlice` in `generate.py`. -/
structure TripSlice where
  trip_id : String
  from_stop_sequence : Nat := 0
  to_stop_sequence : Option Nat := none
deriving DecidableEq, Repr

/-- TripStops: lookup table from stop_id to stop_sequence for one trip.
The Python `dict[str, int]` is modelled as an insertion-ordered
association list. Mirrors `TripStops` in `generate.py`. -/
structure TripStops where
  trip_id : String
  stop_sequence_by_id : List (String × Nat) := []
deriving DecidableEq, Repr

namespace TripStops

/-- Lookup in the insertion-ordered dict (first binding wins; Python dicts
never hold two bindings of one key, and `insert_stop` never adds a second). -/
def lookup (t : TripStops) (stop_id : String) : Option Nat :=
  go t.stop_sequence_by_id
where go : List (String × Nat) → Option Nat
  | [] => none
  | (s, i) :: rest => if s = stop_id then some i else go rest

/-- Mirrors `TripStops.insert_stop`: `self.stop_sequence_by_id.setdefault(stop_id, idx)` —
records the binding only when the stop id is not yet present. -/
def insert_stop (t : TripStops) (idx : Nat) (stop_id : String) : TripStops :=
  if (t.lookup stop_id).isSome then t
  else { t with stop_sequence_by_id := t.stop_sequence_by_id ++ [(stop_id, idx)] }

/-- Mirrors `TripStops.resolve_stop` for a stop id argument; a missing key is a
Python `KeyError`, modelled as `none`. -/
def resolve_stop (t : TripStops) (stop_id : String) : Option Nat :=
  t.lookup stop_id

/-- Mirrors `TripStops.up_to`: slice from the first stop-time up to the given stop. -/
def up_to (t : TripStops) (stop_id : String) : Option TripSlice :=
  (t.resolve_stop stop_id).map fun i => { trip_id := t.trip_id, to_stop_sequence := some i }

/-- Mirrors `TripStops.starting_at`: slice from the given stop up to the last stop-time. -/
def starting_at (t : TripStops) (stop_id : String) : Option TripSlice :=
  (t.resolve_stop stop_id).map fun i => { trip_id := t.trip_id, from_stop_sequence := i }

end TripStops

/-- Connection: one in-seat transfer between two trips at a station.
Mirrors `Connection` in `in_seat_transfers/generate.py` (`carriages` is a
`frozenset[str]`, modelled as `Finset String`). -/
structure Conn where
  from_trip_id : String
  to_trip_id : String
  at_stop_id : String
  carriages : Finset String
  id : Int := 0
deriving DecidableEq

namespace Conn

/-- Mirrors `Connection.with_trip_id_prefix`. -/
def prefixTripIds (c : Conn) (p : String) : Conn :=
  { c with from_trip_id := p ++ c.from_trip_id, to_trip_id := p ++ c.to_trip_id }

/-- Deduplication key: `(from_trip_id, to_trip_id, at_stop_id)`. -/
def dedupKey (c : Conn) : String × String × String :=
  (c.from_trip_id, c.to_trip_id, c.at_stop_id)

/-- One step of `Connection.deduplicate`'s loop body: in the `unique` dict
(an association list keyed by `dedupKey`), either merge the carriages into an
existing entry (id unchanged), or append a fresh entry. -/
def dedupInsert : List ((String × String × String) × Int × Finset String) → Conn →
    List ((String × String × String) × Int × Finset String)
  | [], c => [(c.dedupKey, c.id, c.carriages)]
  | e :: rest, c =>
    if e.1 = c.dedupKey then (e.1, e.2.1, e.2.2 ∪ c.carriages) :: rest
    else e :: dedupInsert rest c

/-- Mirrors `Connection.deduplicate`: fold all connections into the `unique`
dict, then rebuild connections in insertion order. -/
def deduplicate (cs : List Conn) : List Conn :=
  (cs.foldl dedupInsert []).map fun e =>
    { from_trip_id := e.1.1, to_trip_id := e.1.2.1, at_stop_id := e.1.2.2,
      carriages := e.2.2, id := e.2.1 }

/-- Union of the carriage sets of a list of connections. -/
def unionCarriages (cs : List Conn) : Finset String :=
  cs.foldl (fun a c => a ∪ c.carriages) ∅

end Conn

/-- Association-list lookup in the `unique` dict built by `Connection.deduplicate`. -/
def dedupFind : List ((String × String × String) × Int × Finset String) →
    (String × String × String) → Option (Int × Finset String)
  | [], _ => none
  | e :: rest, k => if e.1 = k then some e.2 else dedupFind rest k

/-- Reference semantics of the `unique` dict after processing `ps`: the entry for
key `k` holds the id of the first connection with that key and the union of the
carriage sets of all connections with that key. -/
def specFind (ps : List Conn) (k : String × String × String) : Option (Int × Finset String) :=
  match ps.filter (fun c => c.dedupKey = k) with
  | [] => none
  | c :: rest => some (c.id, Conn.unionCarriages (c :: rest))

namespace Conn

theorem unionCarriages_cons (c : Conn) (l : List Conn) :
    unionCarriages (c :: l) = l.foldl (fun a d => a ∪ d.carriages) c.carriages := by
  simp [unionCarriages, Finset.empty_union]

theorem unionCarriages_append_one (l : List Conn) (c : Conn) :
    unionCarriages (l ++ [c]) = unionCarriages l ∪ c.carriages := by
  simp [unionCarriages, List.foldl_append]

theorem dedupFind_isSome_iff_mem (acc : List ((String × String × String) × Int × Finset String))
    (k : String × String × String) :
    (dedupFind acc k).isSome ↔ k ∈ acc.map (·.1) := by
  induction acc with
  | nil => simp [dedupFind]
  | cons e rest ih =>
    by_cases h : e.1 = k
    · simp [dedupFind, h]
    · simp [dedupFind, h, ih, Ne.symm h]

theorem dedupFind_entry (acc : List ((String × String × String) × Int × Finset String))
    (hnd : (acc.map (·.1)).Nodup) (e : (String × String × String) × Int × Finset String)
    (he : e ∈ acc) : dedupFind acc e.1 = some e.2 := by
  induction acc with
  | nil => simp at he
  | cons a rest ih =>
    simp only [List.map_cons, List.nodup_cons] at hnd
    rcases List.mem_cons.mp he with h | h
    · subst h; simp [dedupFind]
    · have hne : a.1 ≠ e.1 := by
        intro hEq
        exact hnd.1 (hEq ▸ (List.mem_map.mpr ⟨e, h, rfl⟩))
      simp [dedupFind, hne, ih hnd.2 h]

theorem dedupFind_mem (acc : List ((String × String × String) × Int × Finset String))
    (k : String × String × String) (v : Int × Finset String)
    (h : dedupFind acc k = some v) : (k, v) ∈ acc := by
  induction acc with
  | nil => simp [dedupFind] at h
  | cons a rest ih =>
    by_cases he : a.1 = k
    · have h2 : a.2 = v := by simpa [dedupFind, he] using h
      have hav : (k, v) = a := by cases a; simp_all
      rw [hav]
      exact List.mem_cons_self _ _
    · simp only [dedupFind, he, if_neg he] at h
      exact List.mem_cons_of_mem _ (ih h)

theorem dedupInsert_keys (acc : List ((String × String × String) × Int × Finset String))
    (c : Conn) :
    (dedupInsert acc c).map (·.1) =
      if c.dedupKey ∈ acc.map (·.1) then acc.map (·.1) else acc.map (·.1) ++ [c.dedupKey] := by
  induction acc with
  | nil => simp [dedupInsert]
  | cons e rest ih =>
    by_cases h : e.1 = c.dedupKey
    · simp [dedupInsert, h]
    · simp only [dedupInsert, if_neg h, List.map_cons, ih, List.mem_cons]
      by_cases hm : c.dedupKey ∈ rest.map (·.1)
      · simp [hm, Ne.symm h]
      · simp [hm, Ne.symm h]

theorem dedupInsert_find (acc : List ((String × String × String) × Int × Finset String))
    (c : Conn) (k : String × String × String) :
    dedupFind (dedupInsert acc c) k =
      if k = c.dedupKey then
        (match dedupFind acc k with
          | none => some (c.id, c.carriages)
          | some (i, s) => some (i, s ∪ c.carriages))
      else dedupFind acc k := by
  induction acc with
  | nil =>
    by_cases h : k = c.dedupKey
    · simp [dedupInsert, dedupFind, h]
    · simp [dedupInsert, dedupFind, h, Ne.symm h]
  | cons e rest ih =>
    by_cases h : e.1 = c.dedupKey
    · by_cases hk : k = c.dedupKey
      · subst hk; simp [dedupInsert, dedupFind, h]
      · have hek : e.1 ≠ k := fun hh => hk (hh ▸ h)
        simp [dedupInsert, dedupFind, h, hek, hk, Ne.symm hk]
    · by_cases he : e.1 = k
      · have hk : k ≠ c.dedupKey := fun hh => h (he.trans hh)
        simp [dedupInsert, dedupFind, h, he, hk]
      · simp [dedupInsert, dedupFind, h, he, ih]

theorem specFind_append_one (ps : List Conn) (c : Conn) (k : String × String × String) :
    specFind (ps ++ [c]) k =
      if k = c.dedupKey then
        (match specFind ps k with
          | none => some (c.id, c.carriages)
          | some (i, s) => some (i, s ∪ c.carriages))
      else specFind ps k := by
  by_cases hk : k = c.dedupKey
  · subst hk
    simp only [specFind, List.filter_append, if_pos rfl]
    have hc : List.filter (fun d => decide (d.dedupKey = c.dedupKey)) [c] = [c] := by simp
    rw [hc]
    cases hf : List.filter (fun d => decide (d.dedupKey = c.dedupKey)) ps with
    | nil => simp [Conn.unionCarriages, Finset.empty_union]
    | cons d rest =>
      have hu : unionCarriages (d :: (rest ++ [c])) = unionCarriages (d :: rest) ∪ c.carriages :=
        unionCarriages_append_one (d :: rest) c
      simp [hu]
  · simp only [specFind, List.filter_append, if_neg hk]
    have hc : List.filter (fun d => decide (d.dedupKey = k)) [c] = [] := by
      simp [hk, Ne.symm hk]
    simp [hc]

theorem dedup_fold_spec (cs : List Conn) : ∀ (ps : List Conn)
    (acc : List ((String × String × String) × Int × Finset String)),
    (∀ k, dedupFind acc k = specFind ps k) → ((acc.map (·.1)).Nodup) →
    (∀ k, dedupFind (cs.foldl dedupInsert acc) k = specFind (ps ++ cs) k) ∧
      (((cs.foldl dedupInsert acc).map (·.1)).Nodup) := by
  induction cs with
  | nil =>
    intro ps acc hfind hnd
    rw [List.foldl_nil, List.append_nil]
    exact ⟨hfind, hnd⟩
  | cons c rest ih =>
    intro ps acc hfind hnd
    have hfind' : ∀ k, dedupFind (dedupInsert acc c) k = specFind (ps ++ [c]) k := by
      intro k
      rw [dedupInsert_find, specFind_append_one, hfind k]
    have hnd' : ((dedupInsert acc c).map (·.1)).Nodup := by
      rw [dedupInsert_keys]
      by_cases hm : c.dedupKey ∈ acc.map (·.1)
      · simpa [hm] using hnd
      · simp only [if_neg hm]
        exact List.Nodup.append hnd (List.nodup_singleton _)
          (by simpa [List.disjoint_right] using hm)
    have := ih (ps ++ [c]) (dedupInsert acc c) hfind' hnd'
    simpa [List.append_assoc] using this

theorem specFind_none_iff (ps : List Conn) (k : String × String × String) :
    specFind ps k = none ↔ ¬ ∃ c ∈ ps, c.dedupKey = k := by
  unfold specFind
  cases hf : ps.filter (fun c => decide (c.dedupKey = k)) with
  | nil =>
    refine iff_of_true rfl ?_
    rintro ⟨c, hc, hk⟩
    have := List.filter_eq_nil_iff.mp hf c hc
    simp [hk] at this
  | cons d rest =>
    refine iff_of_false (by simp) ?_
    have hd : d ∈ ps.filter (fun c => decide (c.dedupKey = k)) := by
      rw [hf]; exact List.mem_cons_self _ _
    rcases List.mem_filter.mp hd with ⟨hdp, hdk⟩
    exact fun hno => hno ⟨d, hdp, by simpa using hdk⟩

end Conn

/-- Block: a continuous list of TripSlices operated by the same carriages.
Mirrors `Block` in both `generate_in_seat_transfers.py` and
`in_seat_transfers/generate.py`. -/
structure Block where
  legs : List TripSlice
  carriages : Finset String
deriving DecidableEq

namespace Block

/-- Mirrors `Block.issubset`: true when this block's legs are a contiguous
sublist of the other block's legs. -/
def issubset (b o : Block) : Bool :=
  if b.legs.length > o.legs.length then false
  else (List.range (o.legs.length - b.legs.length + 1)).any fun off =>
    b.legs = ((o.legs.drop off).take b.legs.length)

/-- Mirrors `Block.issuperset`. -/
def issuperset (b o : Block) : Bool := o.issubset b

/-- One iteration of `Block.deduplicate`'s inner for/else scan: the first kept
candidate that contains the new block wins (new block dropped), the first kept
candidate contained in the new block is replaced; otherwise the new block is
appended at the end. -/
def dedupStep : List Block → Block → List Block
  | [], b => [b]
  | cand :: rest, b =>
    if b.issubset cand then cand :: rest
    else if b.issuperset cand then b :: rest
    else cand :: dedupStep rest b

/-- Mirrors `Block.deduplicate` from `generate_in_seat_transfers.py`. -/
def deduplicate (bs : List Block) : List Block :=
  bs.foldl dedupStep []

theorem dedupStep_of_unrelated (acc : List Block) (b : Block)
    (h : ∀ cand ∈ acc, b.issubset cand = false ∧ cand.issubset b = false) :
    dedupStep acc b = acc ++ [b] := by
  induction acc with
  | nil => rfl
  | cons cand rest ih =>
    obtain ⟨h1, h2⟩ := h cand (List.mem_cons_self _ _)
    simp only [dedupStep, h1, issuperset, h2, Bool.false_eq_true, if_false]
    rw [ih fun c hc => h c (List.mem_cons_of_mem _ hc)]
    rfl

theorem deduplicate_foldl_of_pairwise (l : List Block) : ∀ acc : List Block,
    (acc ++ l).Pairwise (fun a b => a.issubset b = false ∧ b.issubset a = false) →
    l.foldl dedupStep acc = acc ++ l := by
  induction l with
  | nil => intro acc _; simp
  | cons b rest ih =>
    intro acc h
    have hstep : dedupStep acc b = acc ++ [b] := by
      apply dedupStep_of_unrelated
      intro cand hc
      have := (List.pairwise_append.mp h).2.2 cand hc b (List.mem_cons_self _ _)
      exact ⟨this.2, this.1⟩
    have hrearr : acc ++ b :: rest = (acc ++ [b]) ++ rest := by simp
    rw [List.foldl_cons, hstep, ih (acc ++ [b]) (by rw [← hrearr]; exact h), hrearr]

end Block

/-- StopTime row: the columns referenced by `insert_block_trips`.
`pickup_type`/`drop_off_type` use the GTFS encoding, in which
`StopTime.PassengerExchange.NONE` is `1`. -/
structure StopTimeRec where
  trip_id : String
  stop_sequence : Nat
  stop_id : String
  arrival_time : Int
  departure_time : Int
  pickup_type : Nat := 0
  drop_off_type : Nat := 0
deriving DecidableEq, Repr, Inhabited

instance : Inhabited TripSlice := ⟨{ trip_id := "" }⟩

/-- GTFS `PassengerExchange.NONE` (no pickup / no drop-off). -/
def pexNone : Nat := 1

/-- Stop-times table of the relational store: rows keyed by trip id. -/
abbrev StDb := List (String × List StopTimeRec)

/-- Rows of one trip (`SELECT * FROM stop_times WHERE trip_id = ?`);
a trip with no rows gives the empty result set. -/
def stRows : StDb → String → List StopTimeRec
  | [], _ => []
  | (t, rows) :: rest, tid => if t = tid then rows else stRows rest tid

/-- Insertion step for sorting rows by stop_sequence. -/
def sortInsert (st : StopTimeRec) : List StopTimeRec → List StopTimeRec
  | [] => [st]
  | x :: xs =>
    if st.stop_sequence ≤ x.stop_sequence then st :: x :: xs else x :: sortInsert st xs

/-- Sort rows ascending by stop_sequence (`ORDER BY stop_sequence ASC`). -/
def sortBySeq (l : List StopTimeRec) : List StopTimeRec := l.foldr sortInsert []

namespace TripSlice

/-- Mirrors `TripSlice.select_stop_times`: the trip's rows restricted to
`from_stop_sequence <= stop_sequence <= to_stop_sequence`, ordered by
stop_sequence (the `>=` filter is omitted by the Python code when
`from_stop_sequence = 0`, which for `Nat` sequence numbers is equivalent). -/
def select_stop_times (leg : TripSlice) (db : StDb) : List StopTimeRec :=
  sortBySeq ((stRows db leg.trip_id).filter fun st =>
    decide (leg.from_stop_sequence ≤ st.stop_sequence) &&
      (match leg.to_stop_sequence with
        | none => true
        | some t => decide (st.stop_sequence ≤ t)))

end TripSlice

/-- Mirrors `stop_times[0].arrival_time = stop_times[0].departure_time`
(on the empty list the Python code would raise IndexError; the claims only
concern legs with a nonempty selection). -/
def setFirstArrival : List StopTimeRec → List StopTimeRec
  | [] => []
  | st :: rest => { st with arrival_time := st.departure_time } :: rest

/-- Mirrors `stop_times[-1].departure_time = stop_times[-1].arrival_time`. -/
def setLastDeparture : List StopTimeRec → List StopTimeRec
  | [] => []
  | [st] => [{ st with departure_time := st.arrival_time }]
  | st :: rest => st :: setLastDeparture rest

/-- The per-leg body of `insert_block_trips`: fix the boundary times, then for
EVERY stop-time of the leg retarget the trip id, renumber stop_sequence from 0,
and — inside that same loop — set drop-off to NONE whenever the leg is the
first leg and pickup to NONE whenever the leg is the last leg. -/
def processLeg (newTripId : String) (isFirst isLast : Bool)
    (sts : List StopTimeRec) : List StopTimeRec :=
  (setLastDeparture (setFirstArrival sts)).enum.map fun p =>
    { p.2 with
      trip_id := newTripId
      stop_sequence := p.1
      drop_off_type := if isFirst then pexNone else p.2.drop_off_type
      pickup_type := if isLast then pexNone else p.2.pickup_type }

/-- New trip id of leg `i`, as produced by `_get_unique_trip_id` when the
per-source-trip copy counters are clear at the start of the call: the copy
number counts the earlier legs of this block on the same source trip. -/
def tripIdForLeg (b : Block) (i : Nat) : String :=
  let tid := (b.legs.getD i default).trip_id
  tid ++ "_C" ++ toString (((b.legs.take i).filter fun l => l.trip_id = tid).length)

/-- The stop-times persisted by `GenerateInSeatTransfers.insert_block_trips`
for each leg of the block, in leg order (the trip rows, headsign and transfer
edges also written by the Python method are not referenced by the claims). -/
def insert_block_trips (db : StDb) (b : Block) : List (List StopTimeRec) :=
  b.legs.enum.map fun p =>
    processLeg (tripIdForLeg b p.1) (p.1 == 0) (p.1 == b.legs.length - 1)
      (p.2.select_stop_times db)

theorem setFirstArrival_drop_off (l : List StopTimeRec) (j : Nat) (d : StopTimeRec) :
    ((setFirstArrival l).getD j d).drop_off_type = (l.getD j d).drop_off_type := by
  cases l <;> cases j <;> rfl

theorem setFirstArrival_pickup (l : List StopTimeRec) (j : Nat) (d : StopTimeRec) :
    ((setFirstArrival l).getD j d).pickup_type = (l.getD j d).pickup_type := by
  cases l <;> cases j <;> rfl

theorem setLastDeparture_drop_off (l : List StopTimeRec) (j : Nat) (d : StopTimeRec) :
    ((setLastDeparture l).getD j d).drop_off_type = (l.getD j d).drop_off_type := by
  induction l generalizing j with
  | nil => rfl
  | cons st rest ih =>
    cases rest with
    | nil => cases j with
      | zero => rfl
      | succ j => cases j <;> rfl
    | cons st2 rest2 =>
      cases j with
      | zero => rfl
      | succ j => exact ih j

theorem setLastDeparture_pickup (l : List StopTimeRec) (j : Nat) (d : StopTimeRec) :
    ((setLastDeparture l).getD j d).pickup_type = (l.getD j d).pickup_type := by
  induction l generalizing j with
  | nil => rfl
  | cons st rest ih =>
    cases rest with
    | nil => cases j with
      | zero => rfl
      | succ j => cases j <;> rfl
    | cons st2 rest2 =>
      cases j with
      | zero => rfl
      | succ j => exact ih j

theorem setFirstArrival_length (l : List StopTimeRec) :
    (setFirstArrival l).length = l.length := by
  cases l <;> rfl

theorem setLastDeparture_length (l : List StopTimeRec) :
    (setLastDeparture l).length = l.length := by
  induction l with
  | nil => rfl
  | cons st rest ih =>
    cases rest with
    | nil => rfl
    | cons st2 rest2 => simpa [setLastDeparture] using ih

theorem processLeg_length (tid : String) (isF isL : Bool) (sts : List StopTimeRec) :
    (processLeg tid isF isL sts).length = sts.length := by
  simp [processLeg, setLastDeparture_length, setFirstArrival_length]

theorem processLeg_getD (tid : String) (isF isL : Bool) (sts : List StopTimeRec)
    (j : Nat) (d : StopTimeRec) (hj : j < sts.length) :
    ((processLeg tid isF isL sts).getD j d).drop_off_type =
      (if isF then pexNone else (sts.getD j d).drop_off_type) ∧
    ((processLeg tid isF isL sts).getD j d).pickup_type =
      (if isL then pexNone else (sts.getD j d).pickup_type) := by
  have hlen : j < (setLastDeparture (setFirstArrival sts)).length := by
    rwa [setLastDeparture_length, setFirstArrival_length]
  have hget : (processLeg tid isF isL sts).getD j d =
      { (setLastDeparture (setFirstArrival sts)).getD j d with
        trip_id := tid
        stop_sequence := j
        drop_off_type := if isF then pexNone
          else ((setLastDeparture (setFirstArrival sts)).getD j d).drop_off_type
        pickup_type := if isL then pexNone
          else ((setLastDeparture (setFirstArrival sts)).getD j d).pickup_type } := by
    rw [processLeg, List.getD_eq_getElem _ _ (by simpa [List.enum_length] using hlen),
      List.getElem_map, List.getElem_enum, List.getD_eq_getElem _ _ hlen]
  rw [hget]
  constructor
  · show (if isF then pexNone else _) = _
    rw [setLastDeparture_drop_off, setFirstArrival_drop_off]
  · show (if isL then pexNone else _) = _
    rw [setLastDeparture_pickup, setFirstArrival_pickup]

theorem insert_block_trips_getD (db : StDb) (b : Block) (i : Nat)
    (hi : i < b.legs.length) :
    (insert_block_trips db b).getD i [] =
      processLeg (tripIdForLeg b i) (i == 0) (i == b.legs.length - 1)
        ((b.legs.getD i default).select_stop_times db) := by
  rw [insert_block_trips, List.getD_eq_getElem _ _ (by simpa [List.enum_length] using hi),
    List.getElem_map, List.getElem_enum, List.getD_eq_getElem _ _ hi]

/-- C1 (amended): among the stop-times persisted by `insert_block_trips`,
drop-off is forbidden at EVERY stop-time of the first leg and pickup is
forbidden at EVERY stop-time of the last leg (not only at the boundary
stops); all stop-times of intermediate legs keep the original pickup and
drop-off settings of the corresponding selected source rows. -/
theorem insert_block_trips_pickup_dropoff (db : StDb) (b : Block) (i j : Nat)
    (d : StopTimeRec) (hi : i < b.legs.length)
    (hj : j < ((b.legs.getD i default).select_stop_times db).length) :
    ((((insert_block_trips db b).getD i []).getD j d).drop_off_type =
      if i = 0 then pexNone
      else (((b.legs.getD i default).select_stop_times db).getD j d).drop_off_type) ∧
    ((((insert_block_trips db b).getD i []).getD j d).pickup_type =
      if i = b.legs.length - 1 then pexNone
      else (((b.legs.getD i default).select_stop_times db).getD j d).pickup_type) := by
  rw [insert_block_trips_getD db b i hi]
  have h := processLeg_getD (tripIdForLeg b i) (i == 0) (i == b.legs.length - 1)
    ((b.legs.getD i default).select_stop_times db) j d hj
  constructor
  · rw [h.1]
    by_cases h0 : i = 0 <;> simp [h0]
  · rw [h.2]
    by_cases hl : i = b.legs.length - 1 <;> simp [hl]

/-- Stop-times table used in the C1 counterexample: trip T1 with stops A, B
and trip T2 with stops B, C; all pickup and drop-off types are 0 (regular). -/
def c1Db : StDb :=
  [("T1", [{ trip_id := "T1", stop_sequence := 0, stop_id := "A",
             arrival_time := 100, departure_time := 110 },
           { trip_id := "T1", stop_sequence := 1, stop_id := "B",
             arrival_time := 200, departure_time := 210 }]),
   ("T2", [{ trip_id := "T2", stop_sequence := 1, stop_id := "B",
             arrival_time := 205, departure_time := 215 },
           { trip_id := "T2", stop_sequence := 2, stop_id := "C",
             arrival_time := 300, departure_time := 310 }])]

/-- Two-leg block over `c1Db`: T1 up to stop B, then T2 from stop B. -/
def c1Blk : Block :=
  ⟨[{ trip_id := "T1", from_stop_sequence := 0, to_stop_sequence := some 1 },
    { trip_id := "T2", from_stop_sequence := 1, to_stop_sequence := none }], ∅⟩

/-- C1 counterexample: the materializer forbids drop-off at BOTH stop-times of
the first leg (which has two stops) although its non-final stop-time had
drop-off 0 in the source rows, and forbids pickup at BOTH stop-times of the
last leg although its non-first stop-time had pickup 0. This falsifies the
claim that the restrictions apply exactly at the first leg's final stop and
the last leg's first stop with all other stop-times unchanged. -/
theorem insert_block_trips_restricts_whole_legs :
    ((insert_block_trips c1Db c1Blk).getD 0 []).map (fun st => st.drop_off_type) = [1, 1] ∧
    (((c1Blk.legs.getD 0 default).select_stop_times c1Db).map
      (fun st => st.drop_off_type)) = [0, 0] ∧
    ((insert_block_trips c1Db c1Blk).getD 1 []).map (fun st => st.pickup_type) = [1, 1] ∧
    (((c1Blk.legs.getD 1 default).select_stop_times c1Db).map
      (fun st => st.pickup_type)) = [0, 0] := by
  decide

/-- Witness of the C1 theorem at a concrete block: the first leg's non-final
stop-time is persisted with drop-off NONE. -/
theorem insert_block_trips_pickup_dropoff_witness :
    (((insert_block_trips c1Db c1Blk).getD 0 []).getD 0 default).drop_off_type = pexNone := by
  have h := insert_block_trips_pickup_dropoff c1Db c1Blk 0 0 default
    (by decide) (by decide)
  simpa using h.1

/-- Calendar date; models `impuls.model.Date`, which behaves like Python's
`datetime.date`. -/
structure PDate where
  year : Int
  month : Nat
  day : Nat
deriving DecidableEq, Repr

/-- Gregorian leap-year rule. -/
def isLeapYear (y : Int) : Bool :=
  (y % 4 == 0 && y % 100 != 0) || y % 400 == 0

/-- Number of days of month `m` of year `y`. -/
def daysInMonth (y : Int) (m : Nat) : Nat :=
  if m = 2 then (if isLeapYear y then 29 else 28)
  else if m = 4 ∨ m = 6 ∨ m = 9 ∨ m = 11 then 30
  else 31

/-- Date construction: like `datetime.date(y, m, d)` it fails (`ValueError`)
unless month and day are in range. -/
def mkDate (y : Int) (m d : Nat) : Option PDate :=
  if 1 ≤ m ∧ m ≤ 12 ∧ 1 ≤ d ∧ d ≤ daysInMonth y m then some ⟨y, m, d⟩ else none

/-- Zero-pad a (two-digit) number. -/
def pad2 (n : Nat) : String := if n < 10 then "0" ++ toString n else toString n

/-- ISO format "YYYY-MM-DD" (all years of this feed are four-digit). -/
def PDate.isoformat (dt : PDate) : String :=
  toString dt.year ++ "-" ++ pad2 dt.month ++ "-" ++ pad2 dt.day

/-- One row of `KPD_Rozklad_Przelaczenia.csv`, holding the fields read by
`Connection.read_all`: the two train numbers, the switching station, the raw
comma-separated carriage list, the connection id, the `Timetable_no` season
label, and the thirteen bitmask columns `mth00`..`mth12` in order. -/
structure CsvRow where
  nrPoc1 : String
  nrPoc2 : String
  objectID : String
  carriageNo : String
  przelaczeniaId : Int
  timetableNo : String
  mths : List String
deriving Repr

/-- The characters after the first occurrence of `sep`, i.e. the tail of
Python's `s.partition(sep)` for a one-character separator; `none` when the
separator does not occur (Python then yields the empty tail). -/
def afterFirstSep (sep : Char) : List Char → Option (List Char)
  | [] => none
  | c :: rest => if c = sep then some rest else afterFirstSep sep rest

/-- Python `int()` restricted to the non-negative decimal digit strings that
occur in this data; on any other text — the empty string, or text containing
a non-digit such as a further "/" — `int()` raises, modelled as `none`. -/
def parseNatDigits (cs : List Char) : Option Nat :=
  if cs ≠ [] ∧ cs.all Char.isDigit then
    some (cs.foldl (fun n c => n * 10 + (c.toNat - 48)) 0)
  else none

/-- Python `s.split(sep)` for a one-character separator. -/
def splitOnChar (sep : Char) : List Char → List (List Char)
  | [] => [[]]
  | c :: rest =>
    let r := splitOnChar sep rest
    if c = sep then [] :: r
    else (c :: r.headD []) :: r.tail

/-- Python `s.replace("/", "-")` (a single-character replacement). -/
def replaceSlashDash (s : String) : String :=
  String.mk (s.data.map fun c => if c = '/' then '-' else c)

/-- Mirrors `int(row["Timetable_no"].partition("/")[2])`: the text after the
FIRST "/" parsed as an integer (an empty or non-numeric tail — including a
tail that itself contains "/" — raises inside `int()`, modelled as `none`;
likewise when the label has no "/" at all). -/
def parseYear (s : String) : Option Int :=
  match afterFirstSep '/' s.data with
  | none => none
  | some rest => (parseNatDigits rest).map Int.ofNat

/-- Expansion of one bitmask column: mirrors
`for day, letter in enumerate(days_str, start=1): if letter == "1": yield Date(year, month, day)`.
Returns the dates yielded before any error, and an error flag set when the
`Date` constructor raises (a '1' at a position that is not a valid day). -/
def expandDays (y : Int) (m : Nat) : Nat → List Char → List PDate × Bool
  | _, [] => ([], false)
  | day, c :: rest =>
    if c = '1' then
      match mkDate y m day with
      | none => ([], true)
      | some dt =>
        let r := expandDays y m (day + 1) rest
        (dt :: r.1, r.2)
    else expandDays y m (day + 1) rest

/-- The (year, month) denoted by bitmask column `mth{k:02}`: `mth00` is
December of the year before the labelled year, `mthNN` is month NN of the
labelled year. -/
def monthYear (mainYear : Int) (k : Nat) : Int × Nat :=
  if k = 0 then (mainYear - 1, 12) else (mainYear, k)

/-- Dates yielded for bitmask column `k` (when no error occurs inside it). -/
def monthDates (mainYear : Int) (mths : List String) (k : Nat) : List PDate :=
  (expandDays (monthYear mainYear k).1 (monthYear mainYear k).2 1 (mths.getD k "").data).1

/-- Error flag of bitmask column `k`. -/
def monthBad (mainYear : Int) (mths : List String) (k : Nat) : Bool :=
  (expandDays (monthYear mainYear k).1 (monthYear mainYear k).2 1 (mths.getD k "").data).2

/-- The fold over the 13 bitmask columns; a raise inside one column keeps the
dates already yielded and stops the expansion of later columns. -/
def expandMonths (mainYear : Int) (mths : List String) : List PDate × Bool :=
  (List.range 13).foldl
    (fun acc k =>
      if acc.2 then acc
      else (acc.1 ++ monthDates mainYear mths k, monthBad mainYear mths k))
    ([], false)

/-- Mirrors `Connection._parse_dates` as a generator run to completion or to
its first exception: the yielded dates plus an error flag (set when `int(...)`
on the season label or a `Date(...)` constructor raises). -/
def parse_dates (row : CsvRow) : List PDate × Bool :=
  match parseYear row.timetableNo with
  | none => ([], true)
  | some y => expandMonths y row.mths

/-- The `Connection` built from a CSV row by `Connection.read_all`: train
numbers normalised by replacing "/" with "-", carriage column split on ",". -/
def rowConn (row : CsvRow) : Conn :=
  { from_trip_id := replaceSlashDash row.nrPoc1
    to_trip_id := replaceSlashDash row.nrPoc2
    at_stop_id := row.objectID
    carriages := ((splitOnChar ',' row.carriageNo.data).map String.mk).toFinset
    id := row.przelaczeniaId }

/-- The pairs yielded by `Connection.read_all` for one CSV row under the day
filter `days` (the default `InfiniteDateRange` admits every date, i.e.
`fun _ => true`), together with the expansion's error flag. -/
def read_all_row (days : PDate → Bool) (row : CsvRow) : List (PDate × Conn) × Bool :=
  let r := parse_dates row
  ((r.1.filter days).map fun dt => (dt, (rowConn row).prefixTripIds (dt.isoformat ++ "_")),
    r.2)

/-- The 0-based positions of the '1' characters of a bitmask. -/
def onesPositions : List Char → List Nat
  | [] => []
  | c :: rest =>
    if c = '1' then 0 :: (onesPositions rest).map (· + 1)
    else (onesPositions rest).map (· + 1)

theorem mkDate_eq_some (y : Int) (m d : Nat) (hm1 : 1 ≤ m) (hm2 : m ≤ 12) (hd : 1 ≤ d)
    (hle : d ≤ daysInMonth y m) : mkDate y m d = some ⟨y, m, d⟩ :=
  if_pos ⟨hm1, hm2, hd, hle⟩

theorem mkDate_eq_none (y : Int) (m d : Nat) (hlt : daysInMonth y m < d) :
    mkDate y m d = none := by
  rw [mkDate, if_neg]
  rintro ⟨_, _, _, h4⟩
  omega

theorem mem_onesPositions (chars : List Char) (j : Nat) :
    j ∈ onesPositions chars ↔ j < chars.length ∧ chars.getD j ' ' = '1' := by
  induction chars generalizing j with
  | nil => simp [onesPositions]
  | cons c rest ih =>
    cases j with
    | zero =>
      by_cases hc : c = '1' <;> simp [onesPositions, hc]
    | succ j =>
      have hD : (c :: rest).getD (j + 1) ' ' = rest.getD j ' ' := rfl
      have hmem : j + 1 ∈ onesPositions (c :: rest) ↔ j ∈ onesPositions rest := by
        by_cases hc : c = '1' <;> simp [onesPositions, hc]
      rw [hmem, hD, ih]
      simp [Nat.succ_lt_succ_iff]

theorem onesPositions_nodup (chars : List Char) : (onesPositions chars).Nodup := by
  induction chars with
  | nil => simp [onesPositions]
  | cons c rest ih =>
    have hmap : ((onesPositions rest).map (· + 1)).Nodup :=
      ih.map fun a b h => by omega
    by_cases hc : c = '1'
    · simp only [onesPositions, if_pos hc, List.nodup_cons, hmap, and_true]
      simp only [List.mem_map]
      rintro ⟨x, _, h⟩
      omega
    · simp [onesPositions, hc, hmap]

theorem expandDays_spec (y : Int) (m : Nat) (chars : List Char) : ∀ start : Nat,
    1 ≤ start → 1 ≤ m → m ≤ 12 →
    (∀ j, j < chars.length → chars.getD j ' ' = '1' → start + j ≤ daysInMonth y m) →
    expandDays y m start chars =
      ((onesPositions chars).map (fun j => ⟨y, m, start + j⟩), false) := by
  induction chars with
  | nil => intro start _ _ _ _; rfl
  | cons c rest ih =>
    intro start hs hm1 hm2 hvalid
    have hvalid' : ∀ j, j < rest.length → rest.getD j ' ' = '1' →
        (start + 1) + j ≤ daysInMonth y m := by
      intro j hj h1
      have := hvalid (j + 1) (by simp only [List.length_cons]; omega) h1
      omega
    have ihr := ih (start + 1) (by omega) hm1 hm2 hvalid'
    by_cases hc : c = '1'
    · have hle : start ≤ daysInMonth y m := by
        have := hvalid 0 (by simp) (by simp [hc])
        omega
      rw [expandDays, if_pos hc, mkDate_eq_some y m start hm1 hm2 hs hle, ihr]
      simp only [onesPositions, if_pos hc, List.map_cons, List.map_map]
      refine congrArg (fun l => (_ :: l, false)) ?_
      apply List.map_congr_left
      intro a _
      show (⟨y, m, start + 1 + a⟩ : PDate) = ⟨y, m, start + (a + 1)⟩
      have : start + 1 + a = start + (a + 1) := by omega
      rw [this]
    · rw [expandDays, if_neg hc, ihr]
      simp only [onesPositions, if_neg hc, List.map_map]
      refine congrArg (fun l => (l, false)) ?_
      apply List.map_congr_left
      intro a _
      show (⟨y, m, start + 1 + a⟩ : PDate) = ⟨y, m, start + (a + 1)⟩
      have : start + 1 + a = start + (a + 1) := by omega
      rw [this]

theorem expandDays_err (y : Int) (m : Nat) (chars : List Char) : ∀ start : Nat,
    1 ≤ start → 1 ≤ m → m ≤ 12 →
    ((expandDays y m start chars).2 = true ↔
      ∃ j, j < chars.length ∧ chars.getD j ' ' = '1' ∧ daysInMonth y m < start + j) := by
  induction chars with
  | nil => intro start _ _ _; simp [expandDays]
  | cons c rest ih =>
    intro start hs hm1 hm2
    have ihr := ih (start + 1) (by omega) hm1 hm2
    have hshift : (∃ j, j < rest.length ∧ rest.getD j ' ' = '1' ∧
        daysInMonth y m < (start + 1) + j) ↔
        (∃ j, 0 < j ∧ j < (c :: rest).length ∧ (c :: rest).getD j ' ' = '1' ∧
          daysInMonth y m < start + j) := by
      constructor
      · rintro ⟨j, hj, h1, hlt⟩
        exact ⟨j + 1, by omega, by simp only [List.length_cons]; omega, h1, by omega⟩
      · rintro ⟨j, hj0, hj, h1, hlt⟩
        rcases j with _ | j
        · omega
        · exact ⟨j, by simp only [List.length_cons] at hj; omega, h1, by omega⟩
    by_cases hc : c = '1'
    · rcases le_or_lt start (daysInMonth y m) with hle | hlt
      · rw [expandDays, if_pos hc, mkDate_eq_some y m start hm1 hm2 hs hle]
        show (expandDays y m (start + 1) rest).2 = true ↔ _
        rw [ihr, hshift]
        constructor
        · rintro ⟨j, hj0, hj, h1, h2⟩; exact ⟨j, hj, h1, h2⟩
        · rintro ⟨j, hj, h1, h2⟩
          refine ⟨j, ?_, hj, h1, h2⟩
          rcases Nat.eq_zero_or_pos j with rfl | hpos
          · simp [hc] at h2 ⊢; omega
          · exact hpos
      · rw [expandDays, if_pos hc, mkDate_eq_none y m start hlt]
        refine iff_of_true rfl ⟨0, by simp, by simp [hc], by omega⟩
    · rw [expandDays, if_neg hc]
      rw [ihr, hshift]
      constructor
      · rintro ⟨j, hj0, hj, h1, h2⟩; exact ⟨j, hj, h1, h2⟩
      · rintro ⟨j, hj, h1, h2⟩
        refine ⟨j, ?_, hj, h1, h2⟩
        rcases Nat.eq_zero_or_pos j with rfl | hpos
        · simp at h1; exact absurd h1 hc
        · exact hpos

theorem monthYear_month_bounds (y : Int) (k : Nat) (hk : k < 13) :
    1 ≤ (monthYear y k).2 ∧ (monthYear y k).2 ≤ 12 := by
  rcases Nat.eq_zero_or_pos k with rfl | hpos
  · simp [monthYear]
  · rw [monthYear, if_neg (by omega)]
    exact ⟨hpos, by omega⟩

theorem expandMonths_foldl_err (y : Int) (mths : List String) (ks : List Nat) :
    ∀ acc : List PDate × Bool,
    ((ks.foldl (fun acc k => if acc.2 then acc
        else (acc.1 ++ monthDates y mths k, monthBad y mths k)) acc).2 = true ↔
      acc.2 = true ∨ ∃ k ∈ ks, monthBad y mths k = true) := by
  induction ks with
  | nil => intro acc; simp
  | cons k ks ih =>
    intro acc
    by_cases ha : acc.2
    · rw [List.foldl_cons, if_pos ha, ih]
      simp [ha]
    · rw [List.foldl_cons, if_neg ha, ih]
      have ha2 : acc.2 = false := by simp only [Bool.not_eq_true] at ha; exact ha
      simp only [ha2, Bool.false_eq_true, false_or, List.mem_cons]
      constructor
      · rintro (h | ⟨k2, hk2, h⟩)
        · exact ⟨k, Or.inl rfl, h⟩
        · exact ⟨k2, Or.inr hk2, h⟩
      · rintro ⟨k2, hk2 | hk2, h⟩
        · exact Or.inl (hk2 ▸ h)
        · exact Or.inr ⟨k2, hk2, h⟩

theorem expandMonths_foldl_ok (y : Int) (mths : List String) (ks : List Nat) :
    ∀ acc : List PDate × Bool, acc.2 = false →
    (∀ k ∈ ks, monthBad y mths k = false) →
    (ks.foldl (fun acc k => if acc.2 then acc
        else (acc.1 ++ monthDates y mths k, monthBad y mths k)) acc) =
      (acc.1 ++ (ks.map (monthDates y mths)).flatten, false) := by
  induction ks with
  | nil =>
    intro acc ha _
    rw [List.foldl_nil]
    obtain ⟨l, b⟩ := acc
    simp only at ha
    rw [ha]
    simp
  | cons k ks ih =>
    intro acc ha hks
    rw [List.foldl_cons, if_neg (by simp [ha]),
      ih (acc.1 ++ monthDates y mths k, monthBad y mths k)
        (hks k (List.mem_cons_self _ _))
        (fun k2 h => hks k2 (List.mem_cons_of_mem _ h))]
    simp

/-- C10: for a row whose season label parses to a year, the connection
calendar expansion raises an error — rather than yielding or skipping a
date — exactly when some bitmask column `mth k` contains a '1' at a
1-indexed position exceeding the number of days of its calendar month (the
`Date` constructor raises there, for example at position 30 of the February
bitmask). The error propagates out of `read_all`'s generator (same flag)
instead of being filtered: only bitmasks shorter than their month are
guarded by the length-bounded iteration, not bitmasks longer than it. -/
theorem parse_dates_error_iff (row : CsvRow) (y : Int)
    (hy : parseYear row.timetableNo = some y) :
    ((parse_dates row).2 = true ↔
      ∃ k, k < 13 ∧ ∃ j, j < ((row.mths.getD k "").data).length ∧
        ((row.mths.getD k "").data).getD j ' ' = '1' ∧
        daysInMonth (monthYear y k).1 (monthYear y k).2 < 1 + j) ∧
    (read_all_row (fun _ => true) row).2 = (parse_dates row).2 := by
  refine ⟨?_, rfl⟩
  have hpd : parse_dates row = expandMonths y row.mths := by
    unfold parse_dates
    rw [hy]
  rw [hpd, expandMonths, expandMonths_foldl_err]
  simp only [Bool.false_eq_true, false_or]
  constructor
  · rintro ⟨k, hk, hbad⟩
    have hk13 : k < 13 := List.mem_range.mp hk
    have hb := monthYear_month_bounds y k hk13
    rw [monthBad, expandDays_err _ _ _ 1 le_rfl hb.1 hb.2] at hbad
    obtain ⟨j, hj, h1, hlt⟩ := hbad
    exact ⟨k, hk13, j, hj, h1, hlt⟩
  · rintro ⟨k, hk13, j, hj, h1, hlt⟩
    refine ⟨k, List.mem_range.mpr hk13, ?_⟩
    rw [monthBad, expandDays_err _ _ _ 1 le_rfl (monthYear_month_bounds y k hk13).1
      (monthYear_month_bounds y k hk13).2]
    exact ⟨j, hj, h1, hlt⟩

/-- Row used as the C10 witness: season 2024/2025, and the February column
(`mth02`, here month 2 of 2025) holds a '1' at 1-indexed position 30 — not a
valid February day — so the expansion raises. -/
def c10Row : CsvRow :=
  { nrPoc1 := "101", nrPoc2 := "202", objectID := "S1", carriageNo := "1,2",
    przelaczeniaId := 7, timetableNo := "2024/2025",
    mths := ["", "", "000000000000000000000000000001", "", "", "", "", "",
             "", "", "", "", ""] }

/-- Witness for C10 at `c10Row`: the expansion of the row errors out. -/
theorem parse_dates_error_iff_witness : (parse_dates c10Row).2 = true :=
  ((parse_dates_error_iff c10Row 2025 (by decide)).1).mpr
    ⟨2, by decide, 29, by decide, by decide, by decide⟩

theorem monthYear_inj (y : Int) (k k2 : Nat) (_ : k < 13) (_ : k2 < 13)
    (h : monthYear y k = monthYear y k2) : k = k2 := by
  unfold monthYear at h
  split_ifs at h with h1 h2 h2
  · omega
  · rw [Prod.mk.injEq] at h; omega
  · rw [Prod.mk.injEq] at h; omega
  · rw [Prod.mk.injEq] at h; omega

/-- C7 (amended): for every CSV row whose season label parses to year `y`
(the text after the first "/" is the decimal year) and whose bitmask '1'
positions are all valid calendar days of their months, `read_all` raises no
error and yields one `(date, connection)` pair — with both trip ids of the
connection prefixed by the date's ISO form plus "_" — exactly for each
1-indexed position `d` holding '1' in a bitmask: `mth00` yields December `d`
of year `y - 1` and `mthNN` (N = 1..12) yields day `d` of month N of year
`y`; iteration is bounded by each bitmask's own length. Without the validity
hypothesis the generator raises at the first invalid '1' and later pairs are
not yielded (see the counterexample and C10). -/
theorem read_all_row_yields_iff (row : CsvRow) (y : Int)
    (hy : parseYear row.timetableNo = some y)
    (hvalid : ∀ k, k < 13 → ∀ j, j < ((row.mths.getD k "").data).length →
      ((row.mths.getD k "").data).getD j ' ' = '1' →
        1 + j ≤ daysInMonth (monthYear y k).1 (monthYear y k).2) :
    (read_all_row (fun _ => true) row).2 = false ∧
    (∀ p ∈ (read_all_row (fun _ => true) row).1,
      p.2 = (rowConn row).prefixTripIds (p.1.isoformat ++ "_")) ∧
    (∀ dt : PDate, (∃ c, (dt, c) ∈ (read_all_row (fun _ => true) row).1) ↔
      ∃ k, k < 13 ∧ ∃ j, j < ((row.mths.getD k "").data).length ∧
        ((row.mths.getD k "").data).getD j ' ' = '1' ∧
        dt = ⟨(monthYear y k).1, (monthYear y k).2, 1 + j⟩) ∧
    ((read_all_row (fun _ => true) row).1.map Prod.fst).Nodup := by
  have hmonth : ∀ k, k < 13 →
      expandDays (monthYear y k).1 (monthYear y k).2 1 ((row.mths.getD k "").data) =
        ((onesPositions ((row.mths.getD k "").data)).map
          (fun j => ⟨(monthYear y k).1, (monthYear y k).2, 1 + j⟩), false) := by
    intro k hk
    exact expandDays_spec _ _ _ 1 le_rfl (monthYear_month_bounds y k hk).1
      (monthYear_month_bounds y k hk).2 (hvalid k hk)
  have hbadf : ∀ k ∈ List.range 13, monthBad y row.mths k = false := by
    intro k hk
    rw [monthBad, hmonth k (List.mem_range.mp hk)]
  have hpd : parse_dates row =
      (((List.range 13).map (monthDates y row.mths)).flatten, false) := by
    unfold parse_dates
    rw [hy]
    show expandMonths y row.mths = _
    rw [expandMonths,
      expandMonths_foldl_ok y row.mths (List.range 13) ([], false) rfl hbadf]
    rw [List.nil_append]
  have hpairs : (read_all_row (fun _ => true) row).1 =
      (((List.range 13).map (monthDates y row.mths)).flatten).map
        (fun dt => (dt, (rowConn row).prefixTripIds (dt.isoformat ++ "_"))) := by
    show ((parse_dates row).1.filter (fun _ => true)).map _ = _
    rw [hpd, List.filter_true]
  have hflag : (read_all_row (fun _ => true) row).2 = (parse_dates row).2 := rfl
  have hdmem : ∀ dt : PDate,
      dt ∈ ((List.range 13).map (monthDates y row.mths)).flatten ↔
      ∃ k, k < 13 ∧ ∃ j, j < ((row.mths.getD k "").data).length ∧
        ((row.mths.getD k "").data).getD j ' ' = '1' ∧
        dt = ⟨(monthYear y k).1, (monthYear y k).2, 1 + j⟩ := by
    intro dt
    rw [List.mem_flatten]
    constructor
    · rintro ⟨l, hl, hdt⟩
      rcases List.mem_map.mp hl with ⟨k, hk, rfl⟩
      have hk13 := List.mem_range.mp hk
      rw [monthDates, hmonth k hk13] at hdt
      rcases List.mem_map.mp hdt with ⟨j, hj, rfl⟩
      rcases (mem_onesPositions _ j).mp hj with ⟨hjl, hj1⟩
      exact ⟨k, hk13, j, hjl, hj1, rfl⟩
    · rintro ⟨k, hk13, j, hjl, hj1, rfl⟩
      refine ⟨monthDates y row.mths k,
        List.mem_map.mpr ⟨k, List.mem_range.mpr hk13, rfl⟩, ?_⟩
      rw [monthDates, hmonth k hk13]
      exact List.mem_map.mpr ⟨j, (mem_onesPositions _ j).mpr ⟨hjl, hj1⟩, rfl⟩
  refine ⟨by rw [hflag, hpd], ?_, ?_, ?_⟩
  · intro p hp
    rw [hpairs] at hp
    rcases List.mem_map.mp hp with ⟨dt, _, rfl⟩
    rfl
  · intro dt
    rw [hpairs]
    rw [← hdmem dt]
    constructor
    · rintro ⟨c, hc⟩
      rcases List.mem_map.mp hc with ⟨dt2, hdt2, hEq⟩
      have : dt2 = dt := congrArg Prod.fst hEq
      exact this ▸ hdt2
    · intro hdt
      exact ⟨_, List.mem_map.mpr ⟨dt, hdt, rfl⟩⟩
  · rw [hpairs, List.map_map]
    have hcomp : (Prod.fst ∘ fun dt : PDate =>
        (dt, (rowConn row).prefixTripIds (dt.isoformat ++ "_"))) = id := rfl
    rw [hcomp, List.map_id, List.nodup_flatten]
    constructor
    · intro l hl
      rcases List.mem_map.mp hl with ⟨k, hk, rfl⟩
      rw [monthDates, hmonth k (List.mem_range.mp hk)]
      refine (onesPositions_nodup _).map ?_
      intro a b h
      simp only [PDate.mk.injEq] at h
      omega
    · rw [List.pairwise_map]
      refine (List.pairwise_lt_range 13).imp_of_mem ?_
      intro k k2 hk hk2 hlt
      intro dt hdt hdt2
      have hk13 := List.mem_range.mp hk
      have hk13b := List.mem_range.mp hk2
      rw [monthDates, hmonth k hk13] at hdt
      rw [monthDates, hmonth k2 hk13b] at hdt2
      rcases List.mem_map.mp hdt with ⟨j, _, rfl⟩
      rcases List.mem_map.mp hdt2 with ⟨j2, _, hEq⟩
      have hym : monthYear y k2 = monthYear y k := by
        have h1 := congrArg PDate.year hEq
        have h2 := congrArg PDate.month hEq
        simp only at h1 h2
        exact Prod.ext h1 h2
      have := monthYear_inj y k2 k hk13b hk13 hym
      omega

/-- Row used as the C7 counterexample: the February column has a '1' at
invalid position 30, and the March column has a '1' at valid position 5. -/
def c7Row : CsvRow :=
  { nrPoc1 := "101", nrPoc2 := "202", objectID := "S1", carriageNo := "1,2",
    przelaczeniaId := 8, timetableNo := "2024/2025",
    mths := ["", "", "000000000000000000000000000001", "000010000", "", "", "",
             "", "", "", "", "", ""] }

/-- C7 counterexample: on `c7Row` the season label ends in "/2025" and the
March bitmask (`mth03`) holds '1' at 1-indexed position 5, so the claim
demands a yielded pair dated 2025-03-05; but the February bitmask holds '1'
at position 30, the `Date` constructor raises there, and `read_all` yields
NO pairs at all (the error propagates instead). -/
theorem read_all_row_not_exactly :
    (read_all_row (fun _ => true) c7Row).1 = [] ∧
    (read_all_row (fun _ => true) c7Row).2 = true ∧
    ((c7Row.mths.getD 3 "").data).getD 4 ' ' = '1' ∧
    parseYear c7Row.timetableNo = some 2025 := by
  refine ⟨by decide, by decide, by decide, by decide⟩

/-- Trip data handed to the block resolver (Python `Mapping[str, TripStops]`). -/
abbrev TripsMap := List (String × TripStops)

/-- Lookup of a trip's `TripStops` by trip id. -/
def tripsFind : TripsMap → String → Option TripStops
  | [], _ => none
  | (k, t) :: rest, tid => if k = tid then some t else tripsFind rest tid

/-- The stop-sequence of `stop_id` on the trip keyed `tid`, when both exist
(`trips[tid].stop_sequence_by_id[stop_id]`). -/
def lookupIdx (trips : TripsMap) (tid stop_id : String) : Option Nat :=
  (tripsFind trips tid).bind fun t => t.lookup stop_id

namespace Conn

/-- Mirrors `Connection._is_from_valid`. -/
def is_from_valid (c : Conn) (trips : TripsMap) : Bool :=
  (lookupIdx trips c.from_trip_id c.at_stop_id).isSome

/-- Mirrors `Connection._is_to_valid`. -/
def is_to_valid (c : Conn) (trips : TripsMap) : Bool :=
  (lookupIdx trips c.to_trip_id c.at_stop_id).isSome

/-- Mirrors `Connection.is_valid`. -/
def is_valid (c : Conn) (trips : TripsMap) : Bool :=
  c.is_from_valid trips && c.is_to_valid trips

end Conn

/-- The reasons carried by `NonLinearBlock`. -/
inductive NLBReason
  | notUnique
  | noInitial
  | goesBackwards (trip_id : String) (startIdx endIdx : Nat)
  | disjoint
deriving DecidableEq, Repr

/-- A raise inside the resolver: a `NonLinearBlock`, or a `KeyError` from a
lookup of a missing trip or stop (a different Python exception). -/
inductive RErr
  | nonLinear (r : NLBReason)
  | keyError
deriving DecidableEq, Repr

/-- Mirrors `connections_by_from_trip_id.pop(t, None)` on the dict built by
`build_index(connections, attrgetter("from_trip_id"))`: remove and return the
connection whose from-trip id is `t` (the first match; keys are unique
whenever the dict was built without error). -/
def popByFrom : List Conn → String → Option Conn × List Conn
  | [], _ => (none, [])
  | c :: rest, t =>
    if c.from_trip_id = t then (some c, rest)
    else
      let r := popByFrom rest t
      (r.1, c :: r.2)

/-- The from-trip ids never occurring as any connection's to-trip id: the
candidate set computed by `_find_initial_trip_in_linear_block`, one entry per
distinct id. -/
def initialCandidates (cs : List Conn) : List String :=
  ((cs.map (·.from_trip_id)).dedup).filter fun t =>
    !(cs.any fun c => decide (c.to_trip_id = t))

/-- Mirrors `Block._find_initial_trip_in_linear_block`: the unique candidate,
or `None` when there are zero or several. -/
def find_initial_trip (cs : List Conn) : Option String :=
  match initialCandidates cs with
  | [t] => some t
  | _ => none

/-- The body of `resolve_linear`'s while loop, with structural fuel (the
remaining dict shrinks by one connection per iteration, so
`remaining.length + 1` fuel always suffices; exhaustion is unreachable and
mapped to `KeyError`). Pops the connection continuing from `conn.to_trip_id`;
when found, checks that the switch stop lies strictly after the stop at which
the trip was entered and appends the middle leg; when exhausted, appends the
final leg (`starting_at`, which Python evaluates before the leftover check)
and then reports `is disjoint` if connections were left unconsumed. -/
def walkLoopFuel (trips : TripsMap) :
    Nat → List Conn → Conn → List TripSlice → Except RErr (List TripSlice)
  | 0, _, _, _ => .error .keyError
  | fuel + 1, remaining, conn, legs =>
    match popByFrom remaining conn.to_trip_id with
    | (none, _) =>
      match tripsFind trips conn.to_trip_id with
      | none => .error .keyError
      | some ts =>
        match ts.starting_at conn.at_stop_id with
        | none => .error .keyError
        | some lastLeg =>
          if remaining.isEmpty then .ok (legs ++ [lastLeg])
          else .error (.nonLinear .disjoint)
    | (some next, rest) =>
      match tripsFind trips next.from_trip_id with
      | none => .error .keyError
      | some ts =>
        match ts.lookup conn.at_stop_id, ts.lookup next.at_stop_id with
        | some s, some e2 =>
          if s ≥ e2 then .error (.nonLinear (.goesBackwards ts.trip_id s e2))
          else walkLoopFuel trips fuel rest next
            (legs ++ [{ trip_id := ts.trip_id, from_stop_sequence := s,
                        to_stop_sequence := some e2 }])
        | _, _ => .error .keyError

/-- The while loop of `resolve_linear` at its canonical (always sufficient)
fuel. -/
def walkLoop (trips : TripsMap) (remaining : List Conn) (conn : Conn)
    (legs : List TripSlice) : Except RErr (List TripSlice) :=
  walkLoopFuel trips (remaining.length + 1) remaining conn legs

/-- Mirrors `Block.resolve_linear`. `build_index` raises `ValueError` on a
duplicated from-trip id (reason "from_trip_id is not unique"); then the
initial trip is looked up, with Python's `if not first_trip:` treating BOTH
`None` and the empty string as missing (reason "no initial trip"); then the
initial connection is popped, the first leg created with `up_to`, and the
walk performed. -/
def resolve_linear (cs : List Conn) (trips : TripsMap) (carriages : Finset String) :
    Except RErr Block :=
  if (cs.map (·.from_trip_id)).Nodup then
    match find_initial_trip cs with
    | none => .error (.nonLinear .noInitial)
    | some t0 =>
      if t0 = "" then .error (.nonLinear .noInitial)
      else
        match popByFrom cs t0 with
        | (none, _) => .error .keyError
        | (some c0, rest) =>
          match tripsFind trips c0.from_trip_id with
          | none => .error .keyError
          | some ts0 =>
            match ts0.up_to c0.at_stop_id with
            | none => .error .keyError
            | some leg0 =>
              (walkLoop trips rest c0 [leg0]).map fun legs =>
                { legs := legs, carriages := carriages }
  else .error (.nonLinear .notUnique)

/-- Mirrors `Block.resolve_single`. -/
def resolve_single (c : Conn) (trips : TripsMap) : Except RErr Block :=
  match tripsFind trips c.from_trip_id with
  | none => .error .keyError
  | some tsf =>
    match tsf.up_to c.at_stop_id with
    | none => .error .keyError
    | some leg1 =>
      match tripsFind trips c.to_trip_id with
      | none => .error .keyError
      | some tst =>
        match tst.starting_at c.at_stop_id with
        | none => .error .keyError
        | some leg2 => .ok { legs := [leg1, leg2], carriages := c.carriages }

/-- The trace of the deterministic forward walk, ignoring the stop-index
checks: the consumed connections in order and the connections never
consumed. Structural fuel as in `walkLoopFuel`. -/
def chainFromFuel : Nat → List Conn → String → List Conn × List Conn
  | 0, remaining, _ => ([], remaining)
  | fuel + 1, remaining, t =>
    match popByFrom remaining t with
    | (none, _) => ([], remaining)
    | (some c, rest) =>
      let r := chainFromFuel fuel rest c.to_trip_id
      (c :: r.1, r.2)

/-- The walk's trace at its canonical fuel. -/
def chainFrom (remaining : List Conn) (t : String) : List Conn × List Conn :=
  chainFromFuel remaining.length remaining t

/-- The full trace of `resolve_linear`'s walk over `cs`: the initial
connection followed by the connections consumed by the forward walk. -/
def walkChain (cs : List Conn) : List Conn :=
  match find_initial_trip cs with
  | some t0 =>
    match popByFrom cs t0 with
    | (some c0, rest) => c0 :: (chainFrom rest c0.to_trip_id).1
    | (none, _) => []
  | none => []

/-- The walk's forward-progress check between consecutive consumed
connections `a` and `b`: on the trip entered at `a.at_stop_id` (the trip
continuing `a`, i.e. `b`'s from-trip), the switch stop `b.at_stop_id` must
lie strictly after the entry stop. -/
def adjacentOkB (trips : TripsMap) (a b : Conn) : Bool :=
  match tripsFind trips b.from_trip_id with
  | none => false
  | some ts =>
    match ts.lookup a.at_stop_id, ts.lookup b.at_stop_id with
    | some s, some e2 => decide (s < e2)
    | _, _ => false

/-- Two consecutive legs are joined at exactly the switch stop of a
connection of `cs` linking their trips: the earlier leg ends at that stop's
index on its trip and the later leg starts at that stop's index on its
trip. -/
def joined (cs : List Conn) (trips : TripsMap) (a b : TripSlice) : Prop :=
  ∃ c ∈ cs, c.from_trip_id = a.trip_id ∧ c.to_trip_id = b.trip_id ∧
    a.to_stop_sequence = lookupIdx trips a.trip_id c.at_stop_id ∧
    some b.from_stop_sequence = lookupIdx trips b.trip_id c.at_stop_id

/-- Witness for the C7 theorem: on `c10Row` with the invalid February '1'
replaced by a valid March pattern, the theorem applies; concretely a row with
only `mth03 = "000010000"` yields exactly the date 2025-03-05. -/
theorem read_all_row_yields_iff_witness :
    (∃ c, ((⟨2025, 3, 5⟩ : PDate), c) ∈
      (read_all_row (fun _ => true)
        { nrPoc1 := "101", nrPoc2 := "202", objectID := "S1", carriageNo := "1",
          przelaczeniaId := 9, timetableNo := "2024/2025",
          mths := ["", "", "", "000010000", "", "", "", "", "", "", "", "", ""] }).1) ∧
    (read_all_row (fun _ => true)
        { nrPoc1 := "101", nrPoc2 := "202", objectID := "S1", carriageNo := "1",
          przelaczeniaId := 9, timetableNo := "2024/2025",
          mths := ["", "", "", "000010000", "", "", "", "", "", "", "", "", ""] }).2 = false := by
  have h := read_all_row_yields_iff
    { nrPoc1 := "101", nrPoc2 := "202", objectID := "S1", carriageNo := "1",
      przelaczeniaId := 9, timetableNo := "2024/2025",
      mths := ["", "", "", "000010000", "", "", "", "", "", "", "", "", ""] }
    2025 (by decide) (by decide)
  exact ⟨(h.2.2.1 ⟨2025, 3, 5⟩).mpr ⟨3, by omega, 4, by decide, by decide, by decide⟩, h.1⟩

theorem popByFrom_fst_none_iff (l : List Conn) (t : String) :
    (popByFrom l t).1 = none ↔ ∀ c ∈ l, c.from_trip_id ≠ t := by
  induction l with
  | nil => simp [popByFrom]
  | cons a l ih =>
    by_cases ha : a.from_trip_id = t
    · simp [popByFrom, ha]
    · simp [popByFrom, ha, ih]

theorem popByFrom_snd_of_none (l : List Conn) (t : String)
    (h : (popByFrom l t).1 = none) : (popByFrom l t).2 = l := by
  induction l with
  | nil => rfl
  | cons a l ih =>
    by_cases ha : a.from_trip_id = t
    · simp [popByFrom, ha] at h
    · simp only [popByFrom, if_neg ha] at h ⊢
      rw [ih h]

theorem popByFrom_length (l : List Conn) (t : String) (c : Conn) : ∀ (rest : List Conn),
    popByFrom l t = (some c, rest) → l.length = rest.length + 1 := by
  induction l with
  | nil => intro rest h; simp [popByFrom] at h
  | cons a l ih =>
    intro rest h
    by_cases ha : a.from_trip_id = t
    · rw [popByFrom, if_pos ha] at h
      injection h with h1 h2
      subst h2
      rfl
    · rw [popByFrom, if_neg ha] at h
      injection h with h1 h2
      have h3 : popByFrom l t = (some c, (popByFrom l t).2) := by rw [← h1]
      have h4 := ih (popByFrom l t).2 h3
      subst h2
      simp only [List.length_cons]
      omega

theorem popByFrom_perm (l : List Conn) (t : String) (c : Conn) : ∀ (rest : List Conn),
    popByFrom l t = (some c, rest) → l.Perm (c :: rest) := by
  induction l with
  | nil => intro rest h; simp [popByFrom] at h
  | cons a l ih =>
    intro rest h
    by_cases ha : a.from_trip_id = t
    · rw [popByFrom, if_pos ha] at h
      injection h with h1 h2
      injection h1 with h1
      subst h1 h2
      exact List.Perm.refl _
    · rw [popByFrom, if_neg ha] at h
      injection h with h1 h2
      have h3 : popByFrom l t = (some c, (popByFrom l t).2) := by rw [← h1]
      have hp := ih (popByFrom l t).2 h3
      subst h2
      exact (hp.cons a).trans (List.Perm.swap c a _)

theorem popByFrom_from (l : List Conn) (t : String) (c : Conn) : ∀ (rest : List Conn),
    popByFrom l t = (some c, rest) → c.from_trip_id = t := by
  induction l with
  | nil => intro rest h; simp [popByFrom] at h
  | cons a l ih =>
    intro rest h
    by_cases ha : a.from_trip_id = t
    · rw [popByFrom, if_pos ha] at h
      injection h with h1 _
      injection h1 with h1
      subst h1
      exact ha
    · rw [popByFrom, if_neg ha] at h
      injection h with h1 _
      exact ih (popByFrom l t).2 (by rw [← h1])

theorem chainFromFuel_none (fuel : Nat) (remaining : List Conn) (t : String)
    (h : (popByFrom remaining t).1 = none) :
    chainFromFuel fuel remaining t = ([], remaining) := by
  cases fuel with
  | zero => rfl
  | succ fuel =>
    have hpp : popByFrom remaining t = (none, (popByFrom remaining t).2) := by rw [← h]
    rw [chainFromFuel, hpp]

theorem chainFrom_none (remaining : List Conn) (t : String)
    (h : (popByFrom remaining t).1 = none) :
    chainFrom remaining t = ([], remaining) :=
  chainFromFuel_none _ remaining t h

theorem chainFrom_some (remaining : List Conn) (t : String) (c : Conn) (rest : List Conn)
    (h : popByFrom remaining t = (some c, rest)) :
    chainFrom remaining t =
      (c :: (chainFrom rest c.to_trip_id).1, (chainFrom rest c.to_trip_id).2) := by
  unfold chainFrom
  rw [popByFrom_length remaining t c rest h, chainFromFuel, h]

theorem chainFrom_perm_aux : ∀ (n : Nat) (remaining : List Conn) (t : String),
    remaining.length = n →
    remaining.Perm ((chainFrom remaining t).1 ++ (chainFrom remaining t).2) := by
  intro n
  induction n using Nat.strong_induction_on with
  | _ n ih =>
    intro remaining t hlen
    cases hp : (popByFrom remaining t).1 with
    | none =>
      rw [chainFrom_none remaining t hp]
      simp
    | some c =>
      have hpp : popByFrom remaining t = (some c, (popByFrom remaining t).2) := by rw [← hp]
      rw [chainFrom_some remaining t c (popByFrom remaining t).2 hpp]
      have hlt : (popByFrom remaining t).2.length < n := by
        have := popByFrom_length _ _ _ _ hpp
        omega
      have hperm := ih (popByFrom remaining t).2.length hlt (popByFrom remaining t).2
        c.to_trip_id rfl
      exact (popByFrom_perm _ _ _ _ hpp).trans (hperm.cons c)

theorem chainFrom_perm (remaining : List Conn) (t : String) :
    remaining.Perm ((chainFrom remaining t).1 ++ (chainFrom remaining t).2) :=
  chainFrom_perm_aux remaining.length remaining t rfl

theorem walkLoop_none_step (trips : TripsMap) (remaining : List Conn) (conn : Conn)
    (legs : List TripSlice) (h : (popByFrom remaining conn.to_trip_id).1 = none) :
    walkLoop trips remaining conn legs =
      match tripsFind trips conn.to_trip_id with
      | none => .error .keyError
      | some ts =>
        match ts.starting_at conn.at_stop_id with
        | none => .error .keyError
        | some lastLeg =>
          if remaining.isEmpty then .ok (legs ++ [lastLeg])
          else .error (.nonLinear .disjoint) := by
  have hpp : popByFrom remaining conn.to_trip_id =
      (none, (popByFrom remaining conn.to_trip_id).2) := by rw [← h]
  unfold walkLoop
  rw [walkLoopFuel, hpp]

theorem walkLoop_some_step (trips : TripsMap) (remaining : List Conn) (conn : Conn)
    (legs : List TripSlice) (next : Conn) (rest : List Conn)
    (h : popByFrom remaining conn.to_trip_id = (some next, rest)) :
    walkLoop trips remaining conn legs =
      match tripsFind trips next.from_trip_id with
      | none => .error .keyError
      | some ts =>
        match ts.lookup conn.at_stop_id, ts.lookup next.at_stop_id with
        | some s, some e2 =>
          if s ≥ e2 then .error (.nonLinear (.goesBackwards ts.trip_id s e2))
          else walkLoop trips rest next
            (legs ++ [{ trip_id := ts.trip_id, from_stop_sequence := s,
                        to_stop_sequence := some e2 }])
        | _, _ => .error .keyError := by
  unfold walkLoop
  rw [popByFrom_length remaining conn.to_trip_id next rest h, walkLoopFuel, h]

theorem tripsFind_mem (trips : TripsMap) (tid : String) (ts : TripStops)
    (h : tripsFind trips tid = some ts) : (tid, ts) ∈ trips := by
  induction trips with
  | nil => simp [tripsFind] at h
  | cons p rest ih =>
    obtain ⟨k, tsp⟩ := p
    by_cases hp : k = tid
    · rw [tripsFind, if_pos hp] at h
      injection h with h1
      subst h1
      subst hp
      exact List.mem_cons_self _ _
    · rw [tripsFind, if_neg hp] at h
      exact List.mem_cons_of_mem _ (ih h)

theorem lookupIdx_eq_some (trips : TripsMap) (tid sid : String)
    (h : (lookupIdx trips tid sid).isSome = true) :
    ∃ ts i, tripsFind trips tid = some ts ∧ ts.lookup sid = some i ∧
      lookupIdx trips tid sid = some i := by
  rcases ho : lookupIdx trips tid sid with _ | i
  · rw [ho] at h
    simp at h
  · have ho2 : (tripsFind trips tid).bind (fun t => t.lookup sid) = some i := ho
    rcases Option.bind_eq_some.mp ho2 with ⟨ts, hts, hl⟩
    exact ⟨ts, i, hts, hl, rfl⟩

theorem walkLoop_none_step2 (trips : TripsMap) (remaining : List Conn) (conn : Conn)
    (legs : List TripSlice) (ts : TripStops) (i : Nat)
    (h : (popByFrom remaining conn.to_trip_id).1 = none)
    (hfind : tripsFind trips conn.to_trip_id = some ts)
    (hi : ts.lookup conn.at_stop_id = some i) :
    walkLoop trips remaining conn legs =
      if remaining.isEmpty then
        .ok (legs ++ [{ trip_id := ts.trip_id, from_stop_sequence := i }])
      else .error (.nonLinear .disjoint) := by
  rw [walkLoop_none_step trips remaining conn legs h]
  have hsa : ts.starting_at conn.at_stop_id =
      some { trip_id := ts.trip_id, from_stop_sequence := i } := by
    unfold TripStops.starting_at TripStops.resolve_stop
    rw [hi]
    rfl
  simp only [hfind, hsa]

theorem walkLoop_some_step2 (trips : TripsMap) (remaining : List Conn) (conn : Conn)
    (legs : List TripSlice) (next : Conn) (rest : List Conn) (ts : TripStops)
    (s e2 : Nat)
    (h : popByFrom remaining conn.to_trip_id = (some next, rest))
    (hfind : tripsFind trips next.from_trip_id = some ts)
    (hs : ts.lookup conn.at_stop_id = some s)
    (he : ts.lookup next.at_stop_id = some e2) :
    walkLoop trips remaining conn legs =
      if s ≥ e2 then .error (.nonLinear (.goesBackwards ts.trip_id s e2))
      else walkLoop trips rest next
        (legs ++ [{ trip_id := ts.trip_id, from_stop_sequence := s,
                    to_stop_sequence := some e2 }]) := by
  rw [walkLoop_some_step trips remaining conn legs next rest h]
  simp only [hfind, hs, he]

theorem walkLoop_spec_aux : ∀ (n : Nat) (trips : TripsMap) (remaining : List Conn)
    (conn : Conn) (legs : List TripSlice), remaining.length = n →
    conn.is_to_valid trips = true →
    (∀ c ∈ remaining, c.is_valid trips = true) →
    (walkLoop trips remaining conn legs ≠ .error .keyError) ∧
    (walkLoop trips remaining conn legs ≠ .error (.nonLinear .notUnique)) ∧
    (walkLoop trips remaining conn legs ≠ .error (.nonLinear .noInitial)) ∧
    ((∃ t s e, walkLoop trips remaining conn legs =
        .error (.nonLinear (.goesBackwards t s e))) ↔
      ¬ List.Chain' (fun a b => adjacentOkB trips a b = true)
          (conn :: (chainFrom remaining conn.to_trip_id).1)) ∧
    (walkLoop trips remaining conn legs = .error (.nonLinear .disjoint) ↔
      (List.Chain' (fun a b => adjacentOkB trips a b = true)
          (conn :: (chainFrom remaining conn.to_trip_id).1) ∧
        (chainFrom remaining conn.to_trip_id).2 ≠ [])) ∧
    ((∃ res, walkLoop trips remaining conn legs = .ok res) ↔
      (List.Chain' (fun a b => adjacentOkB trips a b = true)
          (conn :: (chainFrom remaining conn.to_trip_id).1) ∧
        (chainFrom remaining conn.to_trip_id).2 = [])) := by
  intro n
  induction n using Nat.strong_induction_on with
  | _ n ih =>
    intro trips remaining conn legs hlen hvto hv
    cases hp : (popByFrom remaining conn.to_trip_id).1 with
    | none =>
      rw [chainFrom_none _ _ hp]
      obtain ⟨ts, i, hfind, hlook, _⟩ := lookupIdx_eq_some _ _ _ hvto
      rw [walkLoop_none_step2 trips remaining conn legs ts i hp hfind hlook]
      by_cases hre : remaining.isEmpty
      · have hrem : remaining = [] := by
          cases remaining
          · rfl
          · simp [List.isEmpty] at hre
        refine ⟨by simp [hre], by simp [hre], by simp [hre], ?_, ?_, ?_⟩
        · simp [hre, List.chain'_singleton]
        · simp [hre, List.chain'_singleton, hrem]
        · simp [hre, List.chain'_singleton, hrem]
      · have hrem : remaining ≠ [] := by
          cases remaining
          · simp [List.isEmpty] at hre
          · simp
        refine ⟨by simp [hre], by simp [hre], by simp [hre], ?_, ?_, ?_⟩
        · simp [hre, List.chain'_singleton]
        · simp [hre, List.chain'_singleton, hrem]
        · simp [hre, List.chain'_singleton, hrem]
    | some next =>
      have hpp : popByFrom remaining conn.to_trip_id =
          (some next, (popByFrom remaining conn.to_trip_id).2) := by rw [← hp]
      have hnextmem : next ∈ remaining :=
        (popByFrom_perm _ _ _ _ hpp).mem_iff.mpr (List.mem_cons_self _ _)
      have hrestmem : ∀ c ∈ (popByFrom remaining conn.to_trip_id).2, c ∈ remaining :=
        fun c hc => (popByFrom_perm _ _ _ _ hpp).mem_iff.mpr (List.mem_cons_of_mem _ hc)
      have hvnext := hv next hnextmem
      simp only [Conn.is_valid, Bool.and_eq_true] at hvnext
      have hvfrom : next.is_from_valid trips = true := hvnext.1
      have hvto2 : next.is_to_valid trips = true := hvnext.2
      obtain ⟨ts, e2, hfind, hlooke, _⟩ := lookupIdx_eq_some _ _ _ hvfrom
      have hft : next.from_trip_id = conn.to_trip_id := popByFrom_from _ _ _ _ hpp
      obtain ⟨ts2, s, hfind2, hlooks, _⟩ := lookupIdx_eq_some _ _ _ hvto
      have hts : ts2 = ts := by
        rw [hft] at hfind
        rw [hfind] at hfind2
        injection hfind2 with h1
        exact h1.symm
      subst hts
      have hadj : adjacentOkB trips conn next = decide (s < e2) := by
        unfold adjacentOkB
        simp only [hfind, hlooks, hlooke]
      rw [chainFrom_some remaining conn.to_trip_id next
            (popByFrom remaining conn.to_trip_id).2 hpp,
          walkLoop_some_step2 trips remaining conn legs next
            (popByFrom remaining conn.to_trip_id).2 ts2 s e2 hpp hfind hlooks hlooke]
      by_cases hcmp : s ≥ e2
      · rw [if_pos hcmp]
        have hadjf : ¬ (adjacentOkB trips conn next = true) := by
          rw [hadj]
          simp
          omega
        refine ⟨by simp, by simp, by simp, ?_, ?_, ?_⟩
        · refine iff_of_true ⟨ts2.trip_id, s, e2, rfl⟩ ?_
          rw [List.chain'_cons]
          exact fun hch => hadjf hch.1
        · refine iff_of_false (by simp) ?_
          rintro ⟨hch, _⟩
          rw [List.chain'_cons] at hch
          exact hadjf hch.1
        · refine iff_of_false (by simp) ?_
          rintro ⟨hch, _⟩
          rw [List.chain'_cons] at hch
          exact hadjf hch.1
      · rw [if_neg hcmp]
        have hadjt : adjacentOkB trips conn next = true := by
          rw [hadj]
          simp
          omega
        have hlt : (popByFrom remaining conn.to_trip_id).2.length < n := by
          have := popByFrom_length _ _ _ _ hpp
          omega
        have hih := ih (popByFrom remaining conn.to_trip_id).2.length hlt trips
          (popByFrom remaining conn.to_trip_id).2 next
          (legs ++ [{ trip_id := ts2.trip_id, from_stop_sequence := s,
                      to_stop_sequence := some e2 }]) rfl hvto2
          (fun c hc => hv c (hrestmem c hc))
        refine ⟨hih.1, hih.2.1, hih.2.2.1, ?_, ?_, ?_⟩
        · rw [hih.2.2.2.1, List.chain'_cons]
          simp [hadjt]
        · rw [hih.2.2.2.2.1, List.chain'_cons]
          simp [hadjt]
        · rw [hih.2.2.2.2.2, List.chain'_cons]
          simp [hadjt]

/-- The code's success condition on the initial-trip candidates: exactly one
candidate AND (because of Python's `if not first_trip:` truthiness test) that
candidate is not the empty string. -/
def goodInitial (cs : List Conn) : Prop :=
  ∃ t, initialCandidates cs = [t] ∧ t ≠ ""

theorem find_initial_trip_eq_some_iff (cs : List Conn) (t : String) :
    find_initial_trip cs = some t ↔ initialCandidates cs = [t] := by
  constructor
  · intro h
    unfold find_initial_trip at h
    split at h
    · next t2 heq =>
      injection h with h1
      rw [heq, h1]
    · next => exact absurd h (by simp)
  · intro h
    unfold find_initial_trip
    rw [h]

theorem find_initial_trip_eq_none_iff (cs : List Conn) :
    find_initial_trip cs = none ↔ (initialCandidates cs).length ≠ 1 := by
  constructor
  · intro h hlen
    rcases List.length_eq_one.mp hlen with ⟨t, ht⟩
    rw [(find_initial_trip_eq_some_iff cs t).mpr ht] at h
    exact Option.noConfusion h
  · intro h
    rcases ho : find_initial_trip cs with _ | t
    · rfl
    · rw [find_initial_trip_eq_some_iff] at ho
      exact absurd (by rw [ho]; rfl) h

theorem find_initial_mem_from (cs : List Conn) (t0 : String)
    (h : find_initial_trip cs = some t0) : ∃ c ∈ cs, c.from_trip_id = t0 := by
  rw [find_initial_trip_eq_some_iff] at h
  have ht0 : t0 ∈ initialCandidates cs := by rw [h]; exact List.mem_singleton.mpr rfl
  unfold initialCandidates at ht0
  have := List.mem_of_mem_filter ht0
  rw [List.mem_dedup] at this
  rcases List.mem_map.mp this with ⟨c, hc, hct⟩
  exact ⟨c, hc, hct⟩

theorem except_map_eq_error {α β γ : Type} (f : α → β) (x : Except γ α) (e : γ) :
    x.map f = .error e ↔ x = .error e := by
  cases x <;> simp [Except.map]

theorem except_map_exists_ok {α β γ : Type} (f : α → β) (x : Except γ α) :
    (∃ b, x.map f = .ok b) ↔ ∃ a, x = .ok a := by
  cases x <;> simp [Except.map]

theorem except_map_ne_error {α β γ : Type} (f : α → β) (x : Except γ α) (e : γ)
    (h : x ≠ .error e) : x.map f ≠ .error e := by
  cases x <;> simp [Except.map] at h ⊢
  exact h

/-- C2 (amended): for a connection set that is valid for the given trips,
`Block.resolve_linear` raises `NonLinearBlock` if and only if one of the
following holds, with the matching reason, and otherwise returns a Block:
(1) two connections share the same from-trip id (reason "from_trip_id is not
unique"); (2) the number of from-trip ids that never occur as any
connection's to-trip id is zero or more than one, OR — a divergence from the
original claim — the unique such id is the empty string, since Python's
`if not first_trip:` treats `""` like `None` (reason "no initial trip");
(3) at some step of the forward walk the switch-stop index on the continuing
trip is not strictly greater than the index at which that trip was entered
(reason "goes backwards on trip ..."); (4) some connection of the input is
never consumed by the walk (reason "is disjoint"). No other exception
(`KeyError`) escapes on valid inputs. -/
theorem resolve_linear_cases (cs : List Conn) (trips : TripsMap) (car : Finset String)
    (hv : ∀ c ∈ cs, c.is_valid trips = true) :
    (resolve_linear cs trips car = .error (.nonLinear .notUnique) ↔
      ¬ (cs.map (·.from_trip_id)).Nodup) ∧
    (resolve_linear cs trips car = .error (.nonLinear .noInitial) ↔
      ((cs.map (·.from_trip_id)).Nodup ∧
        ((initialCandidates cs).length ≠ 1 ∨ initialCandidates cs = [""]))) ∧
    ((∃ t s e, resolve_linear cs trips car =
        .error (.nonLinear (.goesBackwards t s e))) ↔
      ((cs.map (·.from_trip_id)).Nodup ∧ goodInitial cs ∧
        ¬ List.Chain' (fun a b => adjacentOkB trips a b = true) (walkChain cs))) ∧
    (resolve_linear cs trips car = .error (.nonLinear .disjoint) ↔
      ((cs.map (·.from_trip_id)).Nodup ∧ goodInitial cs ∧
        List.Chain' (fun a b => adjacentOkB trips a b = true) (walkChain cs) ∧
        ∃ c ∈ cs, c ∉ walkChain cs)) ∧
    ((∃ b, resolve_linear cs trips car = .ok b) ↔
      ((cs.map (·.from_trip_id)).Nodup ∧ goodInitial cs ∧
        List.Chain' (fun a b => adjacentOkB trips a b = true) (walkChain cs) ∧
        ∀ c ∈ cs, c ∈ walkChain cs)) ∧
    resolve_linear cs trips car ≠ .error .keyError := by
  by_cases hnd : (cs.map (·.from_trip_id)).Nodup
  · rcases hfi : find_initial_trip cs with _ | t0
    · have hres : resolve_linear cs trips car = .error (.nonLinear .noInitial) := by
        unfold resolve_linear
        rw [if_pos hnd]
        simp only [hfi]
      have hgibad : ¬ goodInitial cs := by
        rintro ⟨t, hcand, _⟩
        exact (find_initial_trip_eq_none_iff cs).mp hfi (by rw [hcand]; rfl)
      rw [hres]
      refine ⟨iff_of_false (by simp) (fun hno => hno hnd), ?_, ?_, ?_, ?_, by simp⟩
      · exact iff_of_true rfl ⟨hnd, Or.inl ((find_initial_trip_eq_none_iff cs).mp hfi)⟩
      · exact iff_of_false (by rintro ⟨t, s, e, h⟩; simp at h)
          (fun ⟨_, hgi, _⟩ => hgibad hgi)
      · exact iff_of_false (by simp) (fun ⟨_, hgi, _⟩ => hgibad hgi)
      · exact iff_of_false (by rintro ⟨b, h⟩; simp at h)
          (fun ⟨_, hgi, _⟩ => hgibad hgi)
    · have hcand := (find_initial_trip_eq_some_iff cs t0).mp hfi
      by_cases ht0 : t0 = ""
      · have hres : resolve_linear cs trips car = .error (.nonLinear .noInitial) := by
          unfold resolve_linear
          rw [if_pos hnd]
          simp only [hfi]
          rw [if_pos ht0]
        have hgibad : ¬ goodInitial cs := by
          rintro ⟨t, hcand2, hne⟩
          rw [hcand] at hcand2
          injection hcand2 with h1 _
          exact hne (h1.symm.trans ht0)
        rw [hres]
        refine ⟨iff_of_false (by simp) (fun hno => hno hnd), ?_, ?_, ?_, ?_, by simp⟩
        · exact iff_of_true rfl ⟨hnd, Or.inr (by rw [hcand, ht0])⟩
        · exact iff_of_false (by rintro ⟨t, s, e, h⟩; simp at h)
            (fun ⟨_, hgi, _⟩ => hgibad hgi)
        · exact iff_of_false (by simp) (fun ⟨_, hgi, _⟩ => hgibad hgi)
        · exact iff_of_false (by rintro ⟨b, h⟩; simp at h)
            (fun ⟨_, hgi, _⟩ => hgibad hgi)
      · obtain ⟨cex, hcex, hcfrom⟩ := find_initial_mem_from cs t0 hfi
        rcases hpp : popByFrom cs t0 with ⟨_ | c0, rest⟩
        · exact absurd hcfrom
            ((popByFrom_fst_none_iff cs t0).mp (by rw [hpp]) cex hcex)
        · have hc0mem : c0 ∈ cs :=
            (popByFrom_perm _ _ _ _ hpp).mem_iff.mpr (List.mem_cons_self _ _)
          have hrestsub : ∀ c ∈ rest, c ∈ cs := fun c hc =>
            (popByFrom_perm _ _ _ _ hpp).mem_iff.mpr (List.mem_cons_of_mem _ hc)
          have hvc0 := hv c0 hc0mem
          simp only [Conn.is_valid, Bool.and_eq_true] at hvc0
          obtain ⟨ts0, i0, hfind0, hlook0, _⟩ := lookupIdx_eq_some _ _ _ hvc0.1
          have hup : ts0.up_to c0.at_stop_id =
              some { trip_id := ts0.trip_id, to_stop_sequence := some i0 } := by
            unfold TripStops.up_to TripStops.resolve_stop
            rw [hlook0]
            rfl
          have hres : resolve_linear cs trips car =
              (walkLoop trips rest c0
                [{ trip_id := ts0.trip_id, to_stop_sequence := some i0 }]).map
                (fun legs => { legs := legs, carriages := car }) := by
            unfold resolve_linear
            rw [if_pos hnd]
            simp only [hfi]
            rw [if_neg ht0]
            simp only [hpp, hfind0, hup]
          have hwc : walkChain cs = c0 :: (chainFrom rest c0.to_trip_id).1 := by
            unfold walkChain
            simp only [hfi, hpp]
          have hspec := walkLoop_spec_aux rest.length trips rest c0
            [{ trip_id := ts0.trip_id, to_stop_sequence := some i0 }] rfl hvc0.2
            (fun c hc => hv c (hrestsub c hc))
          have hcsperm : cs.Perm
              ((c0 :: (chainFrom rest c0.to_trip_id).1) ++
                (chainFrom rest c0.to_trip_id).2) :=
            (popByFrom_perm _ _ _ _ hpp).trans
              ((chainFrom_perm rest c0.to_trip_id).cons c0)
          have hcsnd : cs.Nodup := List.Nodup.of_map _ hnd
          have hndapp := hcsperm.nodup_iff.mp hcsnd
          have hdisj := (List.nodup_append.mp hndapp).2.2
          have hbridge_all : (chainFrom rest c0.to_trip_id).2 = [] ↔
              ∀ c ∈ cs, c ∈ walkChain cs := by
            rw [hwc]
            constructor
            · intro hlo c hc
              have hm := hcsperm.mem_iff.mp hc
              rw [hlo, List.append_nil] at hm
              exact hm
            · intro hall
              rcases hlo : (chainFrom rest c0.to_trip_id).2 with _ | ⟨x, lo2⟩
              · rfl
              · exfalso
                have hx_cs : x ∈ cs := hcsperm.mem_iff.mpr
                  (List.mem_append_right _ (by rw [hlo]; exact List.mem_cons_self _ _))
                have hx_chain := hall x hx_cs
                exact hdisj hx_chain (by rw [hlo]; exact List.mem_cons_self _ _)
          have hbridge_ex : (chainFrom rest c0.to_trip_id).2 ≠ [] ↔
              ∃ c ∈ cs, c ∉ walkChain cs := by
            constructor
            · intro hlo
              rcases hlo2 : (chainFrom rest c0.to_trip_id).2 with _ | ⟨x, lo2⟩
              · exact absurd hlo2 hlo
              · have hx_cs : x ∈ cs := hcsperm.mem_iff.mpr
                  (List.mem_append_right _ (by rw [hlo2]; exact List.mem_cons_self _ _))
                refine ⟨x, hx_cs, ?_⟩
                rw [hwc]
                intro hxin
                exact hdisj hxin (by rw [hlo2]; exact List.mem_cons_self _ _)
            · rintro ⟨c, hc, hnotin⟩ hlo
              exact hnotin (hbridge_all.mp hlo c hc)
          have hgood : goodInitial cs := ⟨t0, hcand, ht0⟩
          rw [hwc] at hbridge_all hbridge_ex
          rw [hres, hwc]
          refine ⟨?_, ?_, ?_, ?_, ?_, ?_⟩
          · exact iff_of_false (except_map_ne_error _ _ _ hspec.2.1) (fun hno => hno hnd)
          · refine iff_of_false (except_map_ne_error _ _ _ hspec.2.2.1) ?_
            rintro ⟨_, hbad | hbad⟩
            · exact hbad (by rw [hcand]; rfl)
            · rw [hcand] at hbad
              injection hbad with h1 _
              exact ht0 h1
          · constructor
            · rintro ⟨t, s, e, hEq⟩
              rw [except_map_eq_error] at hEq
              exact ⟨hnd, hgood, hspec.2.2.2.1.mp ⟨t, s, e, hEq⟩⟩
            · rintro ⟨_, _, hch⟩
              rcases hspec.2.2.2.1.mpr hch with ⟨t, s, e, hEq⟩
              exact ⟨t, s, e, (except_map_eq_error _ _ _).mpr hEq⟩
          · rw [except_map_eq_error, hspec.2.2.2.2.1, hbridge_ex]
            constructor
            · rintro ⟨hch, hex⟩
              exact ⟨hnd, hgood, hch, hex⟩
            · rintro ⟨_, _, hch, hex⟩
              exact ⟨hch, hex⟩
          · rw [except_map_exists_ok, hspec.2.2.2.2.2, hbridge_all]
            constructor
            · rintro ⟨hch, hall⟩
              exact ⟨hnd, hgood, hch, hall⟩
            · rintro ⟨_, _, hch, hall⟩
              exact ⟨hch, hall⟩
          · exact except_map_ne_error _ _ _ hspec.1
  · have hres : resolve_linear cs trips car = .error (.nonLinear .notUnique) := by
      unfold resolve_linear
      rw [if_neg hnd]
    rw [hres]
    refine ⟨iff_of_true rfl hnd, ?_, ?_, ?_, ?_, by simp⟩
    · exact iff_of_false (by simp) (fun ⟨h, _⟩ => hnd h)
    · exact iff_of_false (by rintro ⟨t, s, e, h⟩; simp at h) (fun ⟨h, _⟩ => hnd h)
    · exact iff_of_false (by simp) (fun ⟨h, _⟩ => hnd h)
    · exact iff_of_false (by rintro ⟨b, h⟩; simp at h) (fun ⟨h, _⟩ => hnd h)

theorem walkLoop_ok_aux : ∀ (n : Nat) (trips : TripsMap) (cs : List Conn)
    (remaining : List Conn) (conn : Conn) (legs : List TripSlice)
    (res : List TripSlice), remaining.length = n →
    walkLoop trips remaining conn legs = .ok res →
    (∀ p ∈ trips, (p.2 : TripStops).trip_id = p.1) →
    conn ∈ cs → (∀ c ∈ remaining, c ∈ cs) →
    conn.is_to_valid trips = true →
    (∀ c ∈ remaining, c.is_valid trips = true) →
    (∀ L ∈ legs.getLast?, L.trip_id = conn.from_trip_id ∧
      L.to_stop_sequence = lookupIdx trips conn.from_trip_id conn.at_stop_id) →
    List.Chain' (joined cs trips) legs →
    List.Chain' (joined cs trips) res ∧ legs.length + 1 ≤ res.length := by
  intro n
  induction n using Nat.strong_induction_on with
  | _ n ih =>
    intro trips cs remaining conn legs res hlen hok hcoh hconncs hremcs hvto hv hlast hch
    cases hp : (popByFrom remaining conn.to_trip_id).1 with
    | none =>
      obtain ⟨ts, i, hfind, hlook, hlidx⟩ := lookupIdx_eq_some _ _ _ hvto
      rw [walkLoop_none_step2 trips remaining conn legs ts i hp hfind hlook] at hok
      by_cases hre : remaining.isEmpty
      · rw [if_pos hre] at hok
        injection hok with hok
        subst hok
        have htsid : ts.trip_id = conn.to_trip_id := hcoh _ (tripsFind_mem _ _ _ hfind)
        constructor
        · refine List.Chain'.append hch (List.chain'_singleton _) ?_
          intro x hx y hy
          have hxl := hlast x hx
          have hyl : ({ trip_id := ts.trip_id, from_stop_sequence := i } : TripSlice) = y := by
            simpa using hy
          subst hyl
          refine ⟨conn, hconncs, hxl.1.symm, by simp [htsid], ?_, ?_⟩
          · rw [hxl.1]
            exact hxl.2
          · show some i = lookupIdx trips ts.trip_id conn.at_stop_id
            rw [htsid]
            exact hlidx.symm
        · simp
      · rw [if_neg hre] at hok
        exact absurd hok (by simp)
    | some next =>
      have hpp : popByFrom remaining conn.to_trip_id =
          (some next, (popByFrom remaining conn.to_trip_id).2) := by rw [← hp]
      have hnextmem : next ∈ remaining :=
        (popByFrom_perm _ _ _ _ hpp).mem_iff.mpr (List.mem_cons_self _ _)
      have hrestmem : ∀ c ∈ (popByFrom remaining conn.to_trip_id).2, c ∈ remaining :=
        fun c hc => (popByFrom_perm _ _ _ _ hpp).mem_iff.mpr (List.mem_cons_of_mem _ hc)
      have hvnext := hv next hnextmem
      simp only [Conn.is_valid, Bool.and_eq_true] at hvnext
      obtain ⟨ts, e2, hfind, hlooke, hlidxe⟩ := lookupIdx_eq_some _ _ _ hvnext.1
      have hft : next.from_trip_id = conn.to_trip_id := popByFrom_from _ _ _ _ hpp
      obtain ⟨ts2, s, hfind2, hlooks, hlidxs⟩ := lookupIdx_eq_some _ _ _ hvto
      have hts : ts2 = ts := by
        rw [hft] at hfind
        rw [hfind] at hfind2
        injection hfind2 with h1
        exact h1.symm
      subst hts
      rw [walkLoop_some_step2 trips remaining conn legs next
            (popByFrom remaining conn.to_trip_id).2 ts2 s e2 hpp hfind hlooks hlooke] at hok
      by_cases hcmp : s ≥ e2
      · rw [if_pos hcmp] at hok
        exact absurd hok (by simp)
      · rw [if_neg hcmp] at hok
        have htsid : ts2.trip_id = next.from_trip_id := hcoh _ (tripsFind_mem _ _ _ hfind)
        have hlt : (popByFrom remaining conn.to_trip_id).2.length < n := by
          have := popByFrom_length _ _ _ _ hpp
          omega
        have hmidlast : ∀ L ∈ (legs ++ [TripSlice.mk ts2.trip_id s (some e2)]).getLast?,
            L.trip_id = next.from_trip_id ∧
              L.to_stop_sequence = lookupIdx trips next.from_trip_id next.at_stop_id := by
          intro L hL
          rw [List.getLast?_concat] at hL
          have hLe : TripSlice.mk ts2.trip_id s (some e2) = L := by simpa using hL
          subst hLe
          exact ⟨htsid, by rw [← hlidxe]⟩
        have hchmid : List.Chain' (joined cs trips)
            (legs ++ [TripSlice.mk ts2.trip_id s (some e2)]) := by
          refine List.Chain'.append hch (List.chain'_singleton _) ?_
          intro x hx y hy
          have hxl := hlast x hx
          have hyl : TripSlice.mk ts2.trip_id s (some e2) = y := by simpa using hy
          subst hyl
          refine ⟨conn, hconncs, hxl.1.symm, ?_, ?_, ?_⟩
          · show conn.to_trip_id = ts2.trip_id
            rw [htsid, hft]
          · rw [hxl.1]
            exact hxl.2
          · show some s = lookupIdx trips ts2.trip_id conn.at_stop_id
            rw [htsid, hft]
            exact hlidxs.symm
        have hrec := ih (popByFrom remaining conn.to_trip_id).2.length hlt trips cs
          (popByFrom remaining conn.to_trip_id).2 next
          (legs ++ [TripSlice.mk ts2.trip_id s (some e2)]) res rfl hok hcoh
          (hremcs next hnextmem) (fun c hc => hremcs c (hrestmem c hc))
          hvnext.2 (fun c hc => hv c (hrestmem c hc)) hmidlast hchmid
        refine ⟨hrec.1, ?_⟩
        have := hrec.2
        simp only [List.length_append, List.length_cons, List.length_nil] at this
        omega

/-- C3 (amended): every Block produced by the resolver — by `resolve_single`,
or by `resolve_linear` on valid connections over a coherent trips map — has
at least two legs, and every two consecutive legs are joined at exactly the
switch stop of a connection of the input linking their trips: the earlier
leg ends at that stop's index on its trip and the later leg starts at that
stop's index on its trip. The original claim's further assertion that two
legs referring to the SAME trip never overlap in stop-sequence is false
(see the counterexample): the walk may re-enter a trip and produce
overlapping slices of it. -/
theorem resolver_blocks_joined :
    (∀ (cs : List Conn) (trips : TripsMap) (car : Finset String) (b : Block),
      (∀ p ∈ trips, (p.2 : TripStops).trip_id = p.1) →
      (∀ c ∈ cs, c.is_valid trips = true) →
      resolve_linear cs trips car = .ok b →
      2 ≤ b.legs.length ∧ List.Chain' (joined cs trips) b.legs) ∧
    (∀ (c : Conn) (trips : TripsMap) (b : Block),
      (∀ p ∈ trips, (p.2 : TripStops).trip_id = p.1) →
      c.is_valid trips = true →
      resolve_single c trips = .ok b →
      2 ≤ b.legs.length ∧ List.Chain' (joined [c] trips) b.legs) := by
  constructor
  · intro cs trips car b hcoh hv hres
    unfold resolve_linear at hres
    by_cases hnd : (cs.map (·.from_trip_id)).Nodup
    case neg =>
      rw [if_neg hnd] at hres
      exact absurd hres (by simp)
    rw [if_pos hnd] at hres
    rcases hfi : find_initial_trip cs with _ | t0
    · simp only [hfi] at hres
      exact absurd hres (by simp)
    · simp only [hfi] at hres
      by_cases ht0 : t0 = ""
      · rw [if_pos ht0] at hres
        exact absurd hres (by simp)
      · rw [if_neg ht0] at hres
        rcases hpq : popByFrom cs t0 with ⟨_ | c0, rest⟩
        · simp only [hpq] at hres
          exact absurd hres (by simp)
        · simp only [hpq] at hres
          rcases hf0 : tripsFind trips c0.from_trip_id with _ | ts0
          · simp only [hf0] at hres
            exact absurd hres (by simp)
          · simp only [hf0] at hres
            rcases hu : ts0.up_to c0.at_stop_id with _ | leg0
            · simp only [hu] at hres
              exact absurd hres (by simp)
            · simp only [hu] at hres
              rcases hw : walkLoop trips rest c0 [leg0] with e | legs
              · rw [hw] at hres
                exact absurd hres (by simp [Except.map])
              · rw [hw] at hres
                simp only [Except.map] at hres
                injection hres with hres
                obtain ⟨i0, hlook0, hleg0⟩ := Option.map_eq_some'.mp hu
                have hc0mem : c0 ∈ cs :=
                  (popByFrom_perm _ _ _ _ hpq).mem_iff.mpr (List.mem_cons_self _ _)
                have hrestsub : ∀ x ∈ rest, x ∈ cs := fun x hx =>
                  (popByFrom_perm _ _ _ _ hpq).mem_iff.mpr (List.mem_cons_of_mem _ hx)
                have hvc0 := hv c0 hc0mem
                simp only [Conn.is_valid, Bool.and_eq_true] at hvc0
                have hts0id : ts0.trip_id = c0.from_trip_id :=
                  hcoh _ (tripsFind_mem _ _ _ hf0)
                have hlidx0 : lookupIdx trips c0.from_trip_id c0.at_stop_id = some i0 := by
                  unfold lookupIdx
                  rw [hf0]
                  exact hlook0
                have hlast0 : ∀ L ∈ ([leg0] : List TripSlice).getLast?,
                    L.trip_id = c0.from_trip_id ∧
                      L.to_stop_sequence =
                        lookupIdx trips c0.from_trip_id c0.at_stop_id := by
                  intro L hL
                  have hLl : leg0 = L := by simpa using hL
                  subst hLl
                  rw [← hleg0]
                  exact ⟨hts0id, by rw [hlidx0]⟩
                have hres2 := walkLoop_ok_aux rest.length trips cs rest c0 [leg0] legs
                  rfl hw hcoh hc0mem hrestsub hvc0.2 (fun x hx => hv x (hrestsub x hx))
                  hlast0 (List.chain'_singleton _)
                rw [← hres]
                exact ⟨by simpa using hres2.2, hres2.1⟩
  · intro c trips b hcoh hvc hres
    unfold resolve_single at hres
    rcases hf1 : tripsFind trips c.from_trip_id with _ | tsf
    · simp only [hf1] at hres
      exact absurd hres (by simp)
    · simp only [hf1] at hres
      rcases hu1 : tsf.up_to c.at_stop_id with _ | leg1
      · simp only [hu1] at hres
        exact absurd hres (by simp)
      · simp only [hu1] at hres
        rcases hf2 : tripsFind trips c.to_trip_id with _ | tst
        · simp only [hf2] at hres
          exact absurd hres (by simp)
        · simp only [hf2] at hres
          rcases hu2 : tst.starting_at c.at_stop_id with _ | leg2
          · simp only [hu2] at hres
            exact absurd hres (by simp)
          · simp only [hu2] at hres
            injection hres with hres
            obtain ⟨i1, hlook1, hleg1⟩ := Option.map_eq_some'.mp hu1
            obtain ⟨i2, hlook2, hleg2⟩ := Option.map_eq_some'.mp hu2
            have htsfid : tsf.trip_id = c.from_trip_id :=
              hcoh _ (tripsFind_mem _ _ _ hf1)
            have htstid : tst.trip_id = c.to_trip_id :=
              hcoh _ (tripsFind_mem _ _ _ hf2)
            rw [← hres]
            refine ⟨by simp, ?_⟩
            rw [List.chain'_pair]
            refine ⟨c, List.mem_singleton.mpr rfl, ?_, ?_, ?_, ?_⟩
            · rw [← hleg1]
              exact htsfid.symm
            · rw [← hleg2]
              exact htstid.symm
            · rw [← hleg1]
              show some i1 = lookupIdx trips tsf.trip_id c.at_stop_id
              rw [htsfid]
              unfold lookupIdx
              rw [hf1]
              exact hlook1.symm
            · rw [← hleg2]
              show some i2 = lookupIdx trips tst.trip_id c.at_stop_id
              rw [htstid]
              unfold lookupIdx
              rw [hf2]
              exact hlook2.symm

/-- Single valid connection whose from-trip id is the empty string. -/
def c2cs : List Conn :=
  [{ from_trip_id := "", to_trip_id := "B", at_stop_id := "S",
     carriages := {"1"}, id := 0 }]

/-- Trips for the C2 counterexample: both trips stop at "S". -/
def c2trips : TripsMap :=
  [("", { trip_id := "", stop_sequence_by_id := [("S", 0)] }),
   ("B", { trip_id := "B", stop_sequence_by_id := [("S", 0)] })]

/-- C2 counterexample: for the single valid connection with from-trip id `""`,
there is EXACTLY ONE from-trip id never occurring as a to-trip id, and no
duplicate from-trip id, no backwards step and no unconsumed connection is
possible — so the claim demands a Block — yet `resolve_linear` raises
`NonLinearBlock` with reason "no initial trip", because Python's
`if not first_trip:` treats the empty string like `None`. -/
theorem resolve_linear_empty_string_initial :
    resolve_linear c2cs c2trips {"1"} = .error (.nonLinear .noInitial) ∧
    initialCandidates c2cs = [""] ∧
    (initialCandidates c2cs).length = 1 ∧
    (c2cs.map (fun c => c.from_trip_id)).Nodup ∧
    (∀ c ∈ c2cs, c.is_valid c2trips = true) := by
  refine ⟨rfl, by decide, by decide, by decide, by decide⟩

/-- Connections for the C2 witness: a valid two-connection linear chain. -/
def c2csW : List Conn :=
  [{ from_trip_id := "T1", to_trip_id := "T2", at_stop_id := "S1",
     carriages := {"1"}, id := 1 },
   { from_trip_id := "T2", to_trip_id := "T3", at_stop_id := "S2",
     carriages := {"1"}, id := 2 }]

/-- Trips for the C2 witness. -/
def c2tripsW : TripsMap :=
  [("T1", { trip_id := "T1", stop_sequence_by_id := [("S1", 3)] }),
   ("T2", { trip_id := "T2", stop_sequence_by_id := [("S1", 0), ("S2", 5)] }),
   ("T3", { trip_id := "T3", stop_sequence_by_id := [("S2", 1)] })]

/-- Witness for the C2 theorem: on a valid linear two-connection chain none
of the four failure conditions holds and a Block is returned. -/
theorem resolve_linear_cases_witness :
    ∃ b, resolve_linear c2csW c2tripsW {"1"} = .ok b := by
  have h := resolve_linear_cases c2csW c2tripsW {"1"} (by decide)
  have hwc : walkChain c2csW =
      [{ from_trip_id := "T1", to_trip_id := "T2", at_stop_id := "S1",
         carriages := {"1"}, id := 1 },
       { from_trip_id := "T2", to_trip_id := "T3", at_stop_id := "S2",
         carriages := {"1"}, id := 2 }] := rfl
  refine (h.2.2.2.2.1).mpr ⟨by decide, ⟨"T1", by decide, by decide⟩, ?_, ?_⟩
  · rw [hwc]
    exact List.chain'_pair.mpr (by decide)
  · rw [hwc]
    decide

/-- Connections for the C3 counterexample: T1 continues as T2 at S1, T2 as T3
at S2, and T3 re-enters T2 at S3. -/
def c3cs : List Conn :=
  [{ from_trip_id := "T1", to_trip_id := "T2", at_stop_id := "S1",
     carriages := {"1"}, id := 1 },
   { from_trip_id := "T2", to_trip_id := "T3", at_stop_id := "S2",
     carriages := {"1"}, id := 2 },
   { from_trip_id := "T3", to_trip_id := "T2", at_stop_id := "S3",
     carriages := {"1"}, id := 3 }]

/-- Trips for the C3 counterexample: on T2, the re-entry stop S3 lies at
index 1, strictly inside the earlier leg's range 0..2. -/
def c3trips : TripsMap :=
  [("T1", { trip_id := "T1", stop_sequence_by_id := [("S1", 0)] }),
   ("T2", { trip_id := "T2", stop_sequence_by_id := [("S1", 0), ("S3", 1), ("S2", 2)] }),
   ("T3", { trip_id := "T3", stop_sequence_by_id := [("S2", 0), ("S3", 1)] })]

/-- A stop-sequence index lying inside a TripSlice's inclusive range. -/
def sliceContains (l : TripSlice) (i : Nat) : Bool :=
  decide (l.from_stop_sequence ≤ i) &&
    (match l.to_stop_sequence with
      | none => true
      | some t => decide (i ≤ t))

/-- The Block that `resolve_linear` returns on the C3 input: its second and
fourth legs both slice trip T2. -/
def c3blk : Block :=
  { legs := [{ trip_id := "T1", from_stop_sequence := 0, to_stop_sequence := some 0 },
             { trip_id := "T2", from_stop_sequence := 0, to_stop_sequence := some 2 },
             { trip_id := "T3", from_stop_sequence := 0, to_stop_sequence := some 1 },
             { trip_id := "T2", from_stop_sequence := 1, to_stop_sequence := none }],
    carriages := {"1"} }

/-- C3 counterexample: `resolve_linear` successfully resolves the three valid
connections into a Block whose second leg (T2 rows 0..2) and fourth leg
(T2 rows 1..end) refer to the SAME trip T2 and both contain stop-sequence 1 —
the legs overlap, refuting the claim's pairwise non-overlap assertion. -/
theorem resolve_linear_overlapping_legs :
    resolve_linear c3cs c3trips {"1"} = .ok c3blk ∧
    (∀ c ∈ c3cs, c.is_valid c3trips = true) ∧
    (c3blk.legs.get ⟨1, by decide⟩).trip_id = (c3blk.legs.get ⟨3, by decide⟩).trip_id ∧
    sliceContains (c3blk.legs.get ⟨1, by decide⟩) 1 = true ∧
    sliceContains (c3blk.legs.get ⟨3, by decide⟩) 1 = true := by
  refine ⟨rfl, by decide, by decide, by decide, by decide⟩

/-- Witness for the C3 theorem at the counterexample input: the resolved
block has at least two legs and consecutive legs are joined at switch
stops. -/
theorem resolver_blocks_joined_witness :
    ∃ b, resolve_linear c3cs c3trips {"1"} = .ok b ∧
      2 ≤ b.legs.length ∧ List.Chain' (joined c3cs c3trips) b.legs := by
  have hok : resolve_linear c3cs c3trips {"1"} = .ok c3blk := rfl
  exact ⟨c3blk, hok, by decide,
    (resolver_blocks_joined.1 c3cs c3trips {"1"} c3blk (by decide) (by decide) hok).2⟩

end PKPIC

open PKPIC

/-- Blocks used as concrete inputs for `Block.deduplicate`:
`blkC`'s legs contain both `blkA`'s leg and `blkB`'s leg as contiguous sublists. -/
def blkA : Block := ⟨[{ trip_id := "T1" }], ∅⟩

/-- Second concrete single-leg block. -/
def blkB : Block := ⟨[{ trip_id := "T2" }], ∅⟩

/-- Two-leg block containing `blkA` and `blkB` as contiguous leg sublists. -/
def blkC : Block := ⟨[{ trip_id := "T1" }, { trip_id := "T2" }], ∅⟩

/-- C9 counterexample: `Block.deduplicate` is not idempotent. On `[A, B, C]`
with `A ⊑ C` and `B ⊑ C` (contiguous-sublist ordering on legs), the scan keeps
`[C, B]` — replacing `A` by `C` never re-checks `B` against `C` — so a second
pass shrinks the list to `[C]`. The two passes do not even agree
order-insensitively, since the lengths differ. -/
theorem block_deduplicate_not_idempotent :
    Block.deduplicate [blkA, blkB, blkC] = [blkC, blkB] ∧
    Block.deduplicate (Block.deduplicate [blkA, blkB, blkC]) = [blkC] ∧
    (Block.deduplicate (Block.deduplicate [blkA, blkB, blkC])).length ≠
      (Block.deduplicate [blkA, blkB, blkC]).length := by
  decide

/-- C9 (amended): `Block.deduplicate` returns unchanged every list in which no
block's leg list is a contiguous sublist of a different (by position) block's
leg list; in particular such lists are fixed points of deduplication. Full
idempotence fails (see the counterexample). -/
theorem block_deduplicate_fixed_point (l : List Block)
    (h : l.Pairwise fun a b => a.issubset b = false ∧ b.issubset a = false) :
    Block.deduplicate l = l := by
  have := Block.deduplicate_foldl_of_pairwise l [] (by simpa using h)
  simpa [Block.deduplicate] using this

/-- Witness for the C9 theorem on a concrete subset-free list. -/
theorem block_deduplicate_fixed_point_witness :
    Block.deduplicate [blkA, blkB] = [blkA, blkB] :=
  block_deduplicate_fixed_point [blkA, blkB] (by decide)

/-- C6 (code bug): `TripStops.insert_stop` uses `dict.setdefault`, which keeps
the index of the FIRST call mentioning a stop id, not the smallest such index.
Inserting index 5 and then index 2 for stop "S" leaves 5 stored; the claim
(and the comment in the source) says the smallest index, 2, should be kept.
The stored value is what `resolve_stop`, `up_to` and `starting_at` report. -/
theorem tripstops_insert_keeps_first_not_smallest :
    (((TripStops.mk "T" []).insert_stop 5 "S").insert_stop 2 "S").lookup "S" = some 5 ∧
    (((TripStops.mk "T" []).insert_stop 5 "S").insert_stop 2 "S").resolve_stop "S" ≠ some 2 ∧
    (((TripStops.mk "T" []).insert_stop 5 "S").insert_stop 2 "S").up_to "S" =
      some { trip_id := "T", from_stop_sequence := 0, to_stop_sequence := some 5 } ∧
    (((TripStops.mk "T" []).insert_stop 5 "S").insert_stop 2 "S").starting_at "S" =
      some { trip_id := "T", from_stop_sequence := 5, to_stop_sequence := none } ∧
    min 5 2 = 2 := by
  decide

/-- C4 counterexample: for two connections sharing the key
`(from_trip_id, to_trip_id, at_stop_id)` with ids 5 (first) and 2 (second),
`Connection.deduplicate` outputs id 5 — the id of the first connection seen —
while the claim demands the minimum id, 2. -/
theorem connection_deduplicate_keeps_first_id_not_min :
    (Conn.deduplicate
      [{ from_trip_id := "T1", to_trip_id := "T2", at_stop_id := "S0",
         carriages := {"1"}, id := 5 },
       { from_trip_id := "T1", to_trip_id := "T2", at_stop_id := "S0",
         carriages := {"2"}, id := 2 }]).map Conn.id = [5] ∧
    min (5 : Int) 2 = 2 ∧ (5 : Int) ≠ 2 := by
  refine ⟨by decide, by decide, by decide⟩

/-- C4 (amended): `Connection.deduplicate` returns one connection per distinct
key `(from_trip_id, to_trip_id, at_stop_id)` of the input; each output
connection's carriage set is the union of the carriage sets of all input
connections with its key, and its id is the id of the FIRST input connection
with its key (not the minimum id). -/
theorem connection_deduplicate_groups (cs : List Conn) :
    ((Conn.deduplicate cs).map Conn.dedupKey).Nodup ∧
    (∀ k, (∃ c ∈ cs, c.dedupKey = k) ↔ ∃ c' ∈ Conn.deduplicate cs, c'.dedupKey = k) ∧
    ∀ c' ∈ Conn.deduplicate cs,
      c'.carriages = Conn.unionCarriages (cs.filter (fun c => c.dedupKey = c'.dedupKey)) ∧
      (cs.filter (fun c => c.dedupKey = c'.dedupKey)).head?.map Conn.id = some c'.id := by
  obtain ⟨hfind, hnd⟩ :=
    Conn.dedup_fold_spec cs [] [] (fun _ => rfl) List.nodup_nil
  simp only [List.nil_append] at hfind
  have hkeys : (Conn.deduplicate cs).map Conn.dedupKey =
      (cs.foldl Conn.dedupInsert []).map (·.1) := by
    unfold Conn.deduplicate
    rw [List.map_map]
    rfl
  refine ⟨hkeys ▸ hnd, ?_, ?_⟩
  · intro k
    constructor
    · rintro hex
      have hne : specFind cs k ≠ none := fun hn =>
        (Conn.specFind_none_iff cs k).mp hn hex
      rcases ho : specFind cs k with _ | v
      · exact absurd ho hne
      · have : dedupFind (cs.foldl Conn.dedupInsert []) k = some v := by rw [hfind, ho]
        have hmem := Conn.dedupFind_mem _ _ _ this
        exact ⟨_, List.mem_map.mpr ⟨(k, v), hmem, rfl⟩, rfl⟩
    · rintro ⟨c', hc', hk⟩
      rcases List.mem_map.mp hc' with ⟨e, he, hge⟩
      have hfe : dedupFind (cs.foldl Conn.dedupInsert []) e.1 = some e.2 :=
        Conn.dedupFind_entry _ hnd e he
      have hsome : specFind cs e.1 ≠ none := by rw [← hfind]; simp [hfe]
      have hk1 : e.1 = k := by rw [← hk, ← hge]; rfl
      rw [hk1] at hsome
      by_contra hno
      exact hsome ((Conn.specFind_none_iff cs k).mpr hno)
  · intro c' hc'
    rcases List.mem_map.mp hc' with ⟨e, he, hge⟩
    have hfe : dedupFind (cs.foldl Conn.dedupInsert []) e.1 = some e.2 :=
      Conn.dedupFind_entry _ hnd e he
    have hse : specFind cs e.1 = some e.2 := by rw [← hfind, hfe]
    have hkc : c'.dedupKey = e.1 := by rw [← hge]; rfl
    rw [hkc]
    unfold specFind at hse
    rcases hf : cs.filter (fun c => decide (c.dedupKey = e.1)) with _ | ⟨d, rest⟩ <;>
      rw [hf] at hse
    · exact absurd hse (by simp)
    · have h2 : e.2 = (d.id, Conn.unionCarriages (d :: rest)) := by
        injection hse with h; rw [← h]
      constructor
      · show c'.carriages = _
        rw [← hge]
        show e.2.2 = _
        rw [h2, hf]
      · rw [hf]
        show some d.id = some c'.id
        rw [← hge]
        show some d.id = some e.2.1
        rw [h2]


/-! ### Block-id assignment (`assign_block_id.py`) -/

/-- An insertion-ordered dict from trip ids to neighbor lists, mirroring the
`defaultdict[str, list[str]]` built by `AssignBlockIds.get_linked_trips`. -/
abbrev Adjacency : Type := List (String × List String)

/-- First-match association lookup (Python `dict` access / `in`). -/
def adjFind : Adjacency → String → Option (List String)
  | [], _ => none
  | p :: rest, t => if p.1 = t then some p.2 else adjFind rest t

/-- The keys of the dict, in insertion order. -/
def adjKeys (adj : Adjacency) : List String :=
  adj.map Prod.fst

/-- Mirrors `linked_trips[k].append(v)` on a `defaultdict(list)`: appends to
the existing entry in place, or adds a new key at the end. -/
def addNeighbor : Adjacency → String → String → Adjacency
  | [], k, v => [(k, [v])]
  | p :: rest, k, v =>
    if p.1 = k then (p.1, p.2 ++ [v]) :: rest
    else p :: addNeighbor rest k v

/-- One iteration of the loop in `AssignBlockIds.get_linked_trips`: the
transfer edge is recorded in both directions. -/
def addEdge (adj : Adjacency) (e : String × String) : Adjacency :=
  addNeighbor (addNeighbor adj e.1 e.2) e.2 e.1

/-- Mirrors `AssignBlockIds.get_linked_trips` over the queried list of
`(from_trip_id, to_trip_id)` rows with `transfer_type = 4`. -/
def get_linked_trips (edges : List (String × String)) : Adjacency :=
  edges.foldl addEdge []

/-- Mirrors `dict.popitem()` (CPython removes the LAST inserted entry);
`none` is the `KeyError` on an empty dict. -/
def popLastEntry : Adjacency → Option ((String × List String) × Adjacency)
  | [] => none
  | [p] => some (p, [])
  | p :: q :: rest =>
    match popLastEntry (q :: rest) with
    | some (r, rest2) => some (r, p :: rest2)
    | none => none

/-- Mirrors `dict.pop(key)` with no default: `none` in the first component
models the `KeyError` raised when the key is absent. -/
def popKey : Adjacency → String → Option (List String) × Adjacency
  | [], _ => (none, [])
  | p :: rest, t =>
    if p.1 = t then (some p.2, rest)
    else
      let r := popKey rest t
      (r.1, p :: r.2)

/-- Mirrors `list.pop()` with no argument: removes and returns the LAST
item. -/
def popLastStr : List String → Option (String × List String)
  | [] => none
  | [s] => some (s, [])
  | s :: t :: rest =>
    match popLastStr (t :: rest) with
    | some (r, rest2) => some (r, s :: rest2)
    | none => none

/-- Mirrors `set.add` on the insertion-ordered duplicate-free list standing
for the Python `set[str]` named `block`. -/
def setAdd (block : List String) (t : String) : List String :=
  if t ∈ block then block else block ++ [t]

/-- The `while queue:` loop of `AssignBlockIds.pick_next_block`, with
explicit fuel. `none` models the `KeyError` that `linked_trips.pop(trip)`
raises when `trip` is no longer a key (which happens whenever a trip is
enqueued twice before its first visit, e.g. on any cyclic transfer graph).
Fuel exhaustion cannot occur at the canonical fuel used by
`pick_next_block`: every iteration shortens the queue by one and pays for
the appended neighbors out of the dict's total size. -/
def pickLoopFuel : Nat → List String → List String → Adjacency →
    Option (List String × Adjacency)
  | 0, _, _, _ => none
  | fuel + 1, queue, block, adj =>
    match popLastStr queue with
    | none => some (block, adj)
    | some (trip, queue2) =>
      match popKey adj (trip) with
      | (none, _) => none
      | (some linked, adj2) =>
        pickLoopFuel fuel
          (queue2 ++ linked.filter (fun l => !decide (l ∈ setAdd block trip)))
          (setAdd block trip) adj2

/-- The total size of the dict: one per entry plus its list's length. -/
def adjMeasure (adj : Adjacency) : Nat :=
  (adj.map (fun p => p.2.length + 1)).sum

/-- Mirrors `AssignBlockIds.pick_next_block`; `none` is a Python raise. -/
def pick_next_block (adj : Adjacency) : Option (List String × Adjacency) :=
  match popLastEntry adj with
  | none => none
  | some ((trip, to_expand), adj2) =>
    pickLoopFuel (to_expand.length + adjMeasure adj2 + 1) to_expand [trip] adj2

/-- The `while trips:` loop of `AssignBlockIds.assign_block_ids`, with fuel
(the dict loses at least its popitem entry each round, so its size bounds
the iteration count). Block ids are kept as the raw counter values; Python
stores `str(self.block_id_counter)`, and `str` is injective on the
naturals, so which pairs of trips share an id is unaffected. -/
def assignLoopFuel : Nat → Adjacency → Nat → List (Nat × String) →
    Option (List (Nat × String))
  | 0, _, _, _ => none
  | fuel + 1, adj, counter, acc =>
    if adj.isEmpty then some acc
    else
      match pick_next_block adj with
      | none => none
      | some (block, adj2) =>
        assignLoopFuel fuel adj2 (counter + 1)
          (acc ++ block.map (fun t => (counter, t)))

/-- Mirrors `AssignBlockIds.assign_block_ids` at canonical fuel. -/
def assign_block_ids (adj : Adjacency) : Option (List (Nat × String)) :=
  assignLoopFuel ((adj : List _).length + 1) adj 0 []

/-- `get_linked_trips` followed by `assign_block_ids`: the whole block-id
assignment pass over the list of in-seat transfer edges. -/
def assignBlockIdsFromEdges (edges : List (String × String)) :
    Option (List (Nat × String)) :=
  assign_block_ids (get_linked_trips edges)

/-- Two trips joined by a single in-seat transfer edge, in either
direction. -/
def edgeRel (edges : List (String × String)) (t u : String) : Prop :=
  (t, u) ∈ edges ∨ (u, t) ∈ edges

/-- Connected by a chain of in-seat transfers. -/
def linkedTo (edges : List (String × String)) : String → String → Prop :=
  Relation.ReflTransGen (edgeRel edges)

/-- A trip mentioned by some in-seat transfer edge. -/
def isEndpoint (edges : List (String × String)) (t : String) : Prop :=
  ∃ e ∈ edges, e.1 = t ∨ e.2 = t

/-- `v` occurs on `u`'s neighbor list in the dict. -/
def findMem (adj : Adjacency) (u v : String) : Prop :=
  ∃ vs, adjFind adj u = some vs ∧ v ∈ vs

/-- Reachability along neighbor lists of the dict. -/
def reach (adj : Adjacency) : String → String → Prop :=
  Relation.ReflTransGen (findMem adj)

theorem adjFind_addNeighbor (adj : Adjacency) (k v u : String) :
    adjFind (addNeighbor adj k v) u =
      if u = k then some ((adjFind adj k).getD [] ++ [v]) else adjFind adj u := by
  induction adj with
  | nil =>
    by_cases h : u = k
    · subst h; simp [addNeighbor, adjFind]
    · simp [addNeighbor, adjFind, h, Ne.symm h]
  | cons p rest ih =>
    by_cases hpk : p.1 = k
    · by_cases h : u = k
      · subst h
        simp [addNeighbor, adjFind, hpk]
      · have hku : ¬ (k = u) := fun hh => h hh.symm
        simp [addNeighbor, adjFind, hpk, h, hku]
    · by_cases hpu : p.1 = u
      · have h : ¬ (u = k) := fun hh => hpk (hpu.trans hh)
        simp [addNeighbor, adjFind, hpk, hpu, h]
      · simp [addNeighbor, adjFind, hpk, hpu, ih]

theorem mem_adjKeys_addNeighbor (adj : Adjacency) (k v u : String) :
    u ∈ adjKeys (addNeighbor adj k v) ↔ u ∈ adjKeys adj ∨ u = k := by
  induction adj with
  | nil => simp [addNeighbor, adjKeys]
  | cons p rest ih =>
    by_cases hpk : p.1 = k
    · simp only [addNeighbor, if_pos hpk, adjKeys, List.map_cons, List.mem_cons]
      constructor
      · exact fun h => Or.inl h
      · rintro (h | h)
        · exact h
        · exact Or.inl (h.trans hpk.symm)
    · simp only [addNeighbor, if_neg hpk, adjKeys, List.map_cons, List.mem_cons] at *
      rw [ih]
      tauto

theorem adjKeys_nodup_addNeighbor (adj : Adjacency) (k v : String)
    (hnd : (adjKeys adj).Nodup) : (adjKeys (addNeighbor adj k v)).Nodup := by
  induction adj with
  | nil => simp [addNeighbor, adjKeys]
  | cons p rest ih =>
    simp only [adjKeys, List.map_cons, List.nodup_cons] at hnd
    by_cases hpk : p.1 = k
    · simp only [addNeighbor, if_pos hpk, adjKeys, List.map_cons, List.nodup_cons]
      exact hnd
    · simp only [addNeighbor, if_neg hpk, adjKeys, List.map_cons, List.nodup_cons]
      refine ⟨?_, ih hnd.2⟩
      intro hmem
      rcases (mem_adjKeys_addNeighbor rest k v p.1).mp hmem with h | h
      · exact hnd.1 h
      · exact hpk h

theorem mem_getD_adjFind (adj : Adjacency) (w v : String) :
    v ∈ (adjFind adj w).getD [] ↔ findMem adj w v := by
  rcases h : adjFind adj w with _ | vs
  · simp [findMem, h]
  · simp [findMem, h]

theorem findMem_addNeighbor (adj : Adjacency) (k x u v : String) :
    findMem (addNeighbor adj k x) u v ↔
      findMem adj u v ∨ (u = k ∧ v = x) := by
  unfold findMem
  rw [adjFind_addNeighbor]
  by_cases h : u = k
  · rw [if_pos h]
    constructor
    · rintro ⟨vs, hvs, hv⟩
      injection hvs with hvs
      rw [← hvs] at hv
      rcases List.mem_append.mp hv with hv | hv
      · exact Or.inl (by rw [h]; exact (mem_getD_adjFind adj k v).mp hv)
      · exact Or.inr ⟨h, List.mem_singleton.mp hv⟩
    · rintro (hf | ⟨_, hv⟩)
      · refine ⟨_, rfl, List.mem_append.mpr (Or.inl ?_)⟩
        exact (mem_getD_adjFind adj k v).mpr (by rw [← h]; exact hf)
      · exact ⟨_, rfl, List.mem_append.mpr (Or.inr (by rw [hv]; exact List.mem_singleton_self x))⟩
  · simp only [if_neg h]
    constructor
    · rintro hf
      exact Or.inl hf
    · rintro (hf | ⟨hk, _⟩)
      · exact hf
      · exact absurd hk h

theorem findMem_addEdge (adj : Adjacency) (e : String × String) (u v : String) :
    findMem (addEdge adj e) u v ↔
      findMem adj u v ∨ (u = e.1 ∧ v = e.2) ∨ (u = e.2 ∧ v = e.1) := by
  unfold addEdge
  rw [findMem_addNeighbor, findMem_addNeighbor]
  tauto

theorem findMem_foldl_addEdge (edges : List (String × String)) (adj : Adjacency)
    (u v : String) :
    findMem (edges.foldl addEdge adj) u v ↔ findMem adj u v ∨ edgeRel edges u v := by
  induction edges generalizing adj with
  | nil => simp [edgeRel]
  | cons e es ih =>
    rw [List.foldl_cons, ih, findMem_addEdge]
    unfold edgeRel
    simp only [List.mem_cons, Prod.ext_iff]
    tauto

theorem findMem_get_linked (edges : List (String × String)) (u v : String) :
    findMem (get_linked_trips edges) u v ↔ edgeRel edges u v := by
  rw [get_linked_trips, findMem_foldl_addEdge]
  have hni : ¬ findMem ([] : Adjacency) u v := by
    rintro ⟨vs, hvs, _⟩
    exact absurd hvs (by simp [adjFind])
  constructor
  · rintro (hf | he)
    · exact absurd hf hni
    · exact he
  · exact fun he => Or.inr he

theorem adjFind_isSome_addNeighbor (adj : Adjacency) (k v u : String) :
    (adjFind (addNeighbor adj k v) u).isSome ↔ (adjFind adj u).isSome ∨ u = k := by
  rw [adjFind_addNeighbor]
  by_cases h : u = k
  · simp [h]
  · simp [h]

theorem adjFind_isSome_foldl (edges : List (String × String)) (adj : Adjacency)
    (u : String) :
    (adjFind (edges.foldl addEdge adj) u).isSome ↔
      (adjFind adj u).isSome ∨ isEndpoint edges u := by
  induction edges generalizing adj with
  | nil => simp [isEndpoint]
  | cons e es ih =>
    rw [List.foldl_cons, ih]
    unfold addEdge
    rw [adjFind_isSome_addNeighbor, adjFind_isSome_addNeighbor]
    unfold isEndpoint
    simp only [List.exists_mem_cons_iff]
    constructor
    · rintro (((hs | h1) | h2) | he)
      · exact Or.inl hs
      · exact Or.inr (Or.inl (Or.inl h1.symm))
      · exact Or.inr (Or.inl (Or.inr h2.symm))
      · exact Or.inr (Or.inr he)
    · rintro (hs | ((h1 | h2) | he))
      · exact Or.inl (Or.inl (Or.inl hs))
      · exact Or.inl (Or.inl (Or.inr h1.symm))
      · exact Or.inl (Or.inr h2.symm)
      · exact Or.inr he

theorem endpoint_iff_isSome (edges : List (String × String)) (u : String) :
    (adjFind (get_linked_trips edges) u).isSome ↔ isEndpoint edges u := by
  rw [get_linked_trips, adjFind_isSome_foldl]
  simp [adjFind]

theorem adjKeys_nodup_get_linked (edges : List (String × String)) :
    (adjKeys (get_linked_trips edges)).Nodup := by
  have haux : ∀ (es : List (String × String)) (adj : Adjacency),
      (adjKeys adj).Nodup → (adjKeys (es.foldl addEdge adj)).Nodup := by
    intro es
    induction es with
    | nil => exact fun adj h => h
    | cons e es ih =>
      intro adj h
      rw [List.foldl_cons]
      exact ih _ (adjKeys_nodup_addNeighbor _ _ _ (adjKeys_nodup_addNeighbor _ _ _ h))
  exact haux edges [] (by simp [adjKeys])

theorem edgeRel_symmetric (edges : List (String × String)) : Symmetric (edgeRel edges) :=
  fun _ _ h => h.symm

theorem linkedTo_symmetric (edges : List (String × String)) : Symmetric (linkedTo edges) :=
  Relation.ReflTransGen.symmetric (edgeRel_symmetric edges)

theorem popLastStr_eq_none (q : List String) : popLastStr q = none ↔ q = [] := by
  induction q with
  | nil => simp [popLastStr]
  | cons s rest ih =>
    cases rest with
    | nil => simp [popLastStr]
    | cons t rest2 =>
      simp only [popLastStr]
      rcases h : popLastStr (t :: rest2) with _ | r
      · exact absurd (ih.mp h) (by simp)
      · simp

theorem popLastStr_eq (q : List String) (s : String) (q2 : List String)
    (h : popLastStr q = some (s, q2)) : q = q2 ++ [s] := by
  induction q generalizing s q2 with
  | nil => exact absurd h (by simp [popLastStr])
  | cons a rest ih =>
    cases rest with
    | nil =>
      simp only [popLastStr] at h
      injection h with h
      injection h with h1 h2
      rw [← h1, ← h2]
      rfl
    | cons b rest2 =>
      simp only [popLastStr] at h
      rcases hb : popLastStr (b :: rest2) with _ | r
      · simp only [hb] at h
        exact absurd h (by simp)
      · simp only [hb] at h
        injection h with h
        have h1 : r.1 = s := congrArg Prod.fst h
        have h2 : a :: r.2 = q2 := congrArg Prod.snd h
        rw [← h2, ← h1, List.cons_append, ← ih r.1 r.2 (by rw [hb])]

theorem popLastEntry_eq_none (adj : Adjacency) : popLastEntry adj = none ↔ adj = [] := by
  induction adj with
  | nil => simp [popLastEntry]
  | cons p rest ih =>
    cases rest with
    | nil => simp [popLastEntry]
    | cons q rest2 =>
      simp only [popLastEntry]
      rcases h : popLastEntry (q :: rest2) with _ | r
      · exact absurd (ih.mp h) (by simp)
      · simp

theorem popLastEntry_eq (adj : Adjacency) (p : String × List String) (rest : Adjacency)
    (h : popLastEntry adj = some (p, rest)) : adj = rest ++ [p] := by
  induction adj generalizing p rest with
  | nil => exact absurd h (by simp [popLastEntry])
  | cons a tail ih =>
    cases tail with
    | nil =>
      simp only [popLastEntry] at h
      injection h with h
      injection h with h1 h2
      rw [← h1, ← h2]
      rfl
    | cons b tail2 =>
      simp only [popLastEntry] at h
      rcases hb : popLastEntry (b :: tail2) with _ | r
      · simp only [hb] at h
        exact absurd h (by simp)
      · simp only [hb] at h
        injection h with h
        have h1 : r.1 = p := congrArg Prod.fst h
        have h2 : a :: r.2 = rest := congrArg Prod.snd h
        rw [← h2, ← h1, List.cons_append, ← ih r.1 r.2 (by rw [hb])]

theorem popKey_fst (adj : Adjacency) (t : String) :
    (popKey adj t).1 = adjFind adj t := by
  induction adj with
  | nil => rfl
  | cons p rest ih =>
    by_cases h : p.1 = t
    · simp [popKey, adjFind, h]
    · simp [popKey, adjFind, h, ih]

theorem adjFind_eq_none_iff (adj : Adjacency) (u : String) :
    adjFind adj u = none ↔ u ∉ adjKeys adj := by
  induction adj with
  | nil => simp [adjFind, adjKeys]
  | cons p rest ih =>
    by_cases h : p.1 = u
    · simp [adjFind, adjKeys, h]
    · simp [adjFind, adjKeys, h, Ne.symm h, ih]

theorem popKey_snd_find_ne (adj : Adjacency) (t u : String) (h : u ≠ t) :
    adjFind (popKey adj t).2 u = adjFind adj u := by
  induction adj with
  | nil => rfl
  | cons p rest ih =>
    by_cases hp : p.1 = t
    · have hpu : ¬ (p.1 = u) := fun hh => h ((hh ▸ hp : u = t))
      simp only [popKey, if_pos hp, adjFind, if_neg hpu]
    · simp only [popKey, if_neg hp]
      by_cases hpu : p.1 = u
      · simp [adjFind, hpu]
      · simp [adjFind, hpu, ih]

theorem popKey_snd_find_self (adj : Adjacency) (t : String)
    (hnd : (adjKeys adj).Nodup) : adjFind (popKey adj t).2 t = none := by
  induction adj with
  | nil => rfl
  | cons p rest ih =>
    simp only [adjKeys, List.map_cons, List.nodup_cons] at hnd
    by_cases hp : p.1 = t
    · simp only [popKey, if_pos hp]
      refine (adjFind_eq_none_iff rest t).mpr ?_
      rw [← hp]
      exact hnd.1
    · simp only [popKey, if_neg hp]
      simp [adjFind, hp, ih hnd.2]

theorem popKey_snd_keys_sublist (adj : Adjacency) (t : String) :
    (adjKeys (popKey adj t).2).Sublist (adjKeys adj) := by
  induction adj with
  | nil => simp [popKey, adjKeys]
  | cons p rest ih =>
    by_cases hp : p.1 = t
    · simp only [popKey, if_pos hp, adjKeys, List.map_cons]
      exact List.sublist_cons_self _ _
    · simp only [popKey, if_neg hp, adjKeys, List.map_cons]
      exact List.Sublist.cons₂ _ ih

theorem adjFind_append (l1 l2 : Adjacency) (u : String) :
    adjFind (l1 ++ l2) u =
      match adjFind l1 u with
      | some vs => some vs
      | none => adjFind l2 u := by
  induction l1 with
  | nil => rfl
  | cons p rest ih =>
    by_cases h : p.1 = u
    · simp only [List.cons_append, adjFind, if_pos h]
    · simp only [List.cons_append, adjFind, if_neg h, List.append_eq, ih]

theorem reach_mem_of_closed (full : Adjacency) (out : List String) (s u : String)
    (hs : s ∈ out)
    (hcl : ∀ w v, w ∈ out → findMem full w v → v ∈ out)
    (hr : reach full s u) : u ∈ out := by
  induction hr with
  | refl => exact hs
  | tail _ hstep ih => exact hcl _ _ ih hstep

theorem pickLoopFuel_spec (full : Adjacency) (start : String) :
    ∀ fuel queue block adj out adjOut,
    pickLoopFuel fuel queue block adj = some (out, adjOut) →
    (∀ u vs, adjFind adj u = some vs → adjFind full u = some vs) →
    (adjKeys adj).Nodup →
    (∀ u ∈ block, adjFind adj u = none) →
    (∀ u, adjFind full u ≠ none → adjFind adj u = none → u ∈ block) →
    (∀ u ∈ block, adjFind full u ≠ none) →
    (∀ u ∈ block, reach full start u) →
    (∀ u ∈ queue, reach full start u) →
    (∀ u v, u ∈ block → findMem full u v → v ∈ block ∨ v ∈ queue) →
    ((∀ u ∈ block, u ∈ out) ∧
     (∀ u vs, adjFind adjOut u = some vs → adjFind adj u = some vs) ∧
     (adjKeys adjOut).Nodup ∧
     (∀ u ∈ out, adjFind adjOut u = none) ∧
     (∀ u, adjFind full u ≠ none → adjFind adjOut u = none → u ∈ out) ∧
     (∀ u ∈ out, adjFind full u ≠ none) ∧
     (∀ u ∈ out, reach full start u) ∧
     (∀ u v, u ∈ out → findMem full u v → v ∈ out)) := by
  intro fuel
  induction fuel with
  | zero =>
    intro queue block adj out adjOut hres
    exact absurd hres (by simp [pickLoopFuel])
  | succ fuel ih =>
    intro queue block adj out adjOut hres hsub hnd hbn hrem hbk hbr hqr hcl
    rcases hq : popLastStr queue with _ | tq
    · have hqe : queue = [] := (popLastStr_eq_none queue).mp hq
      simp only [pickLoopFuel, hq] at hres
      injection hres with hres
      have ho : out = block := (congrArg Prod.fst hres).symm
      have ha : adjOut = adj := (congrArg Prod.snd hres).symm
      subst ho; subst ha
      refine ⟨fun u hu => hu, fun u vs h => h, hnd, hbn, hrem, hbk, hbr, ?_⟩
      intro u v hu hf
      rcases hcl u v hu hf with h | h
      · exact h
      · rw [hqe] at h
        exact absurd h (List.not_mem_nil v)
    · rcases tq with ⟨trip, queue2⟩
      have hqeq : queue = queue2 ++ [trip] := popLastStr_eq queue trip queue2 hq
      have htq : reach full start trip := hqr trip (by rw [hqeq]; simp)
      simp only [pickLoopFuel, hq] at hres
      rcases hpk : popKey adj trip with ⟨_ | linked, adj2⟩
      · simp only [hpk] at hres
        exact absurd hres (by simp)
      · simp only [hpk] at hres
        have hfind : adjFind adj trip = some linked := by
          rw [← popKey_fst, hpk]
        have htb : trip ∉ block := by
          intro h
          have hn := hbn trip h
          rw [hfind] at hn
          exact absurd hn (by simp)
        have hset : setAdd block trip = block ++ [trip] := by
          simp [setAdd, htb]
        rw [hset] at hres
        have hfull_trip : adjFind full trip = some linked := hsub trip linked hfind
        have ha2 : adj2 = (popKey adj trip).2 := (congrArg Prod.snd hpk).symm
        have hfind2ne : ∀ u, u ≠ trip → adjFind adj2 u = adjFind adj u := by
          intro u hu
          rw [ha2]
          exact popKey_snd_find_ne adj trip u hu
        have hfind2self : adjFind adj2 trip = none := by
          rw [ha2]
          exact popKey_snd_find_self adj trip hnd
        have hnd2 : (adjKeys adj2).Nodup := by
          rw [ha2]
          exact List.Nodup.sublist (popKey_snd_keys_sublist adj trip) hnd
        have hC := ih _ (block ++ [trip]) adj2 out adjOut hres
          (by
            intro u vs h
            by_cases hu : u = trip
            · rw [hu, hfind2self] at h
              exact absurd h (by simp)
            · rw [hfind2ne u hu] at h
              exact hsub u vs h)
          hnd2
          (by
            intro u hu
            rcases List.mem_append.mp hu with h | h
            · have hut : u ≠ trip := fun he => htb (he ▸ h)
              rw [hfind2ne u hut]
              exact hbn u h
            · rw [List.mem_singleton.mp h]
              exact hfind2self)
          (by
            intro u hfu h2
            by_cases hu : u = trip
            · exact List.mem_append.mpr (Or.inr (by rw [hu]; exact List.mem_singleton_self trip))
            · rw [hfind2ne u hu] at h2
              exact List.mem_append.mpr (Or.inl (hrem u hfu h2)))
          (by
            intro u hu
            rcases List.mem_append.mp hu with h | h
            · exact hbk u h
            · rw [List.mem_singleton.mp h, hfull_trip]
              simp)
          (by
            intro u hu
            rcases List.mem_append.mp hu with h | h
            · exact hbr u h
            · rw [List.mem_singleton.mp h]
              exact htq)
          (by
            intro u hu
            rcases List.mem_append.mp hu with h | h
            · exact hqr u (by rw [hqeq]; exact List.mem_append.mpr (Or.inl h))
            · have hm := (List.mem_filter.mp h).1
              exact htq.tail ⟨linked, hfull_trip, hm⟩)
          (by
            intro u v hu hf
            rcases List.mem_append.mp hu with h | h
            · rcases hcl u v h hf with hv | hv
              · exact Or.inl (List.mem_append.mpr (Or.inl hv))
              · rw [hqeq] at hv
                rcases List.mem_append.mp hv with hv | hv
                · exact Or.inr (List.mem_append.mpr (Or.inl hv))
                · exact Or.inl (List.mem_append.mpr (Or.inr hv))
            · rcases hf with ⟨vs, hvs, hvmem⟩
              rw [List.mem_singleton.mp h, hfull_trip] at hvs
              injection hvs with hvs
              rw [← hvs] at hvmem
              by_cases hvb : v ∈ block ++ [trip]
              · exact Or.inl hvb
              · refine Or.inr (List.mem_append.mpr (Or.inr ?_))
                exact List.mem_filter.mpr ⟨hvmem, by simp [hvb]⟩)
        rcases hC with ⟨c1, c2, c3, c4, c5, c6, c7, c8⟩
        refine ⟨?_, ?_, c3, c4, c5, c6, c7, c8⟩
        · intro u hu
          exact c1 u (List.mem_append.mpr (Or.inl hu))
        · intro u vs h
          have h2 := c2 u vs h
          by_cases hu : u = trip
          · rw [hu, hfind2self] at h2
            exact absurd h2 (by simp)
          · rw [hfind2ne u hu] at h2
            exact h2

theorem pick_next_block_spec (adj : Adjacency) (out : List String) (adjOut : Adjacency)
    (hnd : (adjKeys adj).Nodup)
    (h : pick_next_block adj = some (out, adjOut)) :
    ∃ start, adjFind adj start ≠ none ∧ start ∈ out ∧
      (∀ u vs, adjFind adjOut u = some vs → adjFind adj u = some vs) ∧
      (adjKeys adjOut).Nodup ∧
      (∀ u ∈ out, adjFind adjOut u = none) ∧
      (∀ u, adjFind adj u ≠ none → adjFind adjOut u = none → u ∈ out) ∧
      (∀ u ∈ out, adjFind adj u ≠ none) ∧
      (∀ u ∈ out, reach adj start u) ∧
      (∀ u v, u ∈ out → findMem adj u v → v ∈ out) := by
  unfold pick_next_block at h
  rcases hpl : popLastEntry adj with _ | pe
  · simp only [hpl] at h
    exact absurd h (by simp)
  · rcases pe with ⟨⟨start, te⟩, adj2⟩
    simp only [hpl] at h
    have heq : adj = adj2 ++ [(start, te)] := popLastEntry_eq adj (start, te) adj2 hpl
    have hkeys : adjKeys adj = adjKeys adj2 ++ [start] := by
      rw [heq]
      simp [adjKeys]
    rw [hkeys] at hnd
    rcases List.nodup_append.mp hnd with ⟨hnd2, _, hdisj⟩
    have hs2 : start ∉ adjKeys adj2 := fun hmem => hdisj hmem (List.mem_singleton_self start)
    have hf2none : adjFind adj2 start = none := (adjFind_eq_none_iff adj2 start).mpr hs2
    have hfs : adjFind adj start = some te := by
      rw [heq]
      simp only [adjFind_append, hf2none]
      simp [adjFind]
    have hfne : ∀ u, u ≠ start → adjFind adj2 u = adjFind adj u := by
      intro u hu
      rw [heq]
      simp only [adjFind_append]
      rcases hx : adjFind adj2 u with _ | vs
      · simp [adjFind, Ne.symm hu]
      · rfl
    have hC := pickLoopFuel_spec adj start (te.length + adjMeasure adj2 + 1)
      te [start] adj2 out adjOut h
      (by
        intro u vs hx
        by_cases hu : u = start
        · rw [hu, hf2none] at hx
          exact absurd hx (by simp)
        · rw [← hfne u hu]
          exact hx)
      hnd2
      (by
        intro u hu
        rw [List.mem_singleton.mp hu]
        exact hf2none)
      (by
        intro u hfu h2
        by_cases hu : u = start
        · rw [hu]
          exact List.mem_singleton_self start
        · rw [hfne u hu] at h2
          exact absurd h2 hfu)
      (by
        intro u hu
        rw [List.mem_singleton.mp hu, hfs]
        simp)
      (by
        intro u hu
        rw [List.mem_singleton.mp hu]
        exact Relation.ReflTransGen.refl)
      (by
        intro u hu
        exact Relation.ReflTransGen.single ⟨te, hfs, hu⟩)
      (by
        intro u v hu hf
        rcases hf with ⟨vs, hvs, hv⟩
        rw [List.mem_singleton.mp hu] at hvs
        rw [hfs] at hvs
        injection hvs with hvs
        rw [← hvs] at hv
        exact Or.inr hv)
    rcases hC with ⟨c1, c2, c3, c4, c5, c6, c7, c8⟩
    refine ⟨start, by rw [hfs]; simp, c1 start (List.mem_singleton_self start),
      ?_, c3, c4, c5, c6, c7, c8⟩
    intro u vs hx
    have h2 := c2 u vs hx
    by_cases hu : u = start
    · rw [hu, hf2none] at h2
      exact absurd h2 (by simp)
    · rw [← hfne u hu]
      exact h2

theorem reach_to_linkedTo (edges : List (String × String)) (adj : Adjacency)
    (hsub : ∀ u vs, adjFind adj u = some vs → adjFind (get_linked_trips edges) u = some vs)
    (s u : String) (h : reach adj s u) : linkedTo edges s u := by
  refine Relation.ReflTransGen.mono ?_ h
  intro a b hab
  rcases hab with ⟨vs, hvs, hv⟩
  exact (findMem_get_linked edges a b).mp ⟨vs, hsub a vs hvs, hv⟩

theorem linkedTo_mem_of_closed (edges : List (String × String)) (adj : Adjacency)
    (hsub : ∀ u vs, adjFind adj u = some vs → adjFind (get_linked_trips edges) u = some vs)
    (out : List String) (s : String)
    (hs : s ∈ out)
    (hkeys : ∀ u ∈ out, adjFind adj u ≠ none)
    (hcl : ∀ u v, u ∈ out → findMem adj u v → v ∈ out) :
    ∀ u, linkedTo edges s u → u ∈ out := by
  intro u h
  induction h with
  | refl => exact hs
  | @tail w x _ hstep ih =>
    rcases hx : adjFind adj w with _ | vs
    · exact absurd hx (hkeys w ih)
    · have hfull : adjFind (get_linked_trips edges) w = some vs := hsub w vs hx
      have hfm : findMem (get_linked_trips edges) w x :=
        (findMem_get_linked edges w x).mpr hstep
      rcases hfm with ⟨vs2, hvs2, hxm⟩
      rw [hfull] at hvs2
      injection hvs2 with hvs2
      rw [← hvs2] at hxm
      exact hcl w x ih ⟨vs, hx, hxm⟩

theorem assignLoopFuel_spec (edges : List (String × String)) :
    ∀ fuel adj counter acc out,
    assignLoopFuel fuel adj counter acc = some out →
    (∀ u vs, adjFind adj u = some vs → adjFind (get_linked_trips edges) u = some vs) →
    (adjKeys adj).Nodup →
    (∀ i t, (i, t) ∈ acc → i < counter) →
    (∀ t, adjFind adj t ≠ none → ∀ i, (i, t) ∉ acc) →
    (∀ u, adjFind (get_linked_trips edges) u ≠ none →
      (adjFind adj u = none ↔ ∃ i, (i, u) ∈ acc)) →
    (∀ i t, (i, t) ∈ acc → adjFind (get_linked_trips edges) t ≠ none) →
    (∀ i t u, (i, t) ∈ acc → (i, u) ∈ acc → linkedTo edges t u) →
    (∀ i t u, (i, t) ∈ acc → linkedTo edges t u → (i, u) ∈ acc) →
    (∀ i j t, (i, t) ∈ acc → (j, t) ∈ acc → i = j) →
    ((∀ i j t, (i, t) ∈ out → (j, t) ∈ out → i = j) ∧
     (∀ i t u, (i, t) ∈ out → (i, u) ∈ out → linkedTo edges t u) ∧
     (∀ i t u, (i, t) ∈ out → linkedTo edges t u → (i, u) ∈ out) ∧
     (∀ t, (∃ i, (i, t) ∈ out) ↔ isEndpoint edges t)) := by
  intro fuel
  induction fuel with
  | zero =>
    intro adj counter acc out hres
    exact absurd hres (by simp [assignLoopFuel])
  | succ fuel ih =>
    intro adj counter acc out hres hsub hnd j3 j4 j5 j5b j6 j7 j8
    by_cases hemp : adj.isEmpty = true
    · simp only [assignLoopFuel, if_pos hemp] at hres
      injection hres with hres
      subst hres
      have hallnone : ∀ u, adjFind adj u = none := by
        intro u
        rw [List.isEmpty_iff.mp hemp]
        rfl
      refine ⟨j8, j6, j7, ?_⟩
      intro t
      constructor
      · rintro ⟨i, hit⟩
        exact (endpoint_iff_isSome edges t).mp
          (Option.ne_none_iff_isSome.mp (j5b i t hit))
      · intro hep
        have hne : adjFind (get_linked_trips edges) t ≠ none :=
          Option.ne_none_iff_isSome.mpr ((endpoint_iff_isSome edges t).mpr hep)
        exact (j5 t hne).mp (hallnone t)
    · simp only [assignLoopFuel, if_neg hemp] at hres
      rcases hpn : pick_next_block adj with _ | pb
      · simp only [hpn] at hres
        exact absurd hres (by simp)
      · rcases pb with ⟨block, adj2⟩
        simp only [hpn] at hres
        rcases pick_next_block_spec adj block adj2 hnd hpn with
          ⟨start, _, pstart_mem, psub, pnd, poutnone, prem, pkeys, preach, pclosure⟩
        have hstart_link : ∀ u ∈ block, linkedTo edges start u :=
          fun u hu => reach_to_linkedTo edges adj hsub start u (preach u hu)
        have hlinked_mem : ∀ u, linkedTo edges start u → u ∈ block :=
          linkedTo_mem_of_closed edges adj hsub block start pstart_mem pkeys pclosure
        have hmemnew : ∀ i x, (i, x) ∈ block.map (fun t => (counter, t)) ↔
            i = counter ∧ x ∈ block := by
          intro i x
          constructor
          · intro hm
            rcases List.mem_map.mp hm with ⟨a, ha, heq⟩
            have h1 : counter = i := congrArg Prod.fst heq
            have h2 : a = x := congrArg Prod.snd heq
            exact ⟨h1.symm, h2 ▸ ha⟩
          · rintro ⟨hi, hx⟩
            exact List.mem_map.mpr ⟨x, hx, by rw [hi]⟩
        have hblock_full : ∀ u ∈ block, adjFind (get_linked_trips edges) u ≠ none := by
          intro u hu
          rcases hx : adjFind adj u with _ | vs
          · exact absurd hx (pkeys u hu)
          · rw [hsub u vs hx]
            simp
        refine ih adj2 (counter + 1) (acc ++ block.map (fun t => (counter, t))) out hres
          (fun u vs hx => hsub u vs (psub u vs hx)) pnd ?_ ?_ ?_ ?_ ?_ ?_ ?_
        · intro i t hm
          rcases List.mem_append.mp hm with hm | hm
          · exact Nat.lt_succ_of_lt (j3 i t hm)
          · rw [(hmemnew i t).mp hm |>.1]
            exact Nat.lt_succ_self counter
        · intro t hne i hm
          rcases List.mem_append.mp hm with hm | hm
          · rcases hx : adjFind adj2 t with _ | vs
            · exact hne hx
            · exact j4 t (by rw [psub t vs hx]; simp) i hm
          · exact hne (poutnone t ((hmemnew i t).mp hm).2)
        · intro u hfne
          constructor
          · intro h2
            by_cases hadj : adjFind adj u = none
            · rcases (j5 u hfne).mp hadj with ⟨i, hm⟩
              exact ⟨i, List.mem_append.mpr (Or.inl hm)⟩
            · exact ⟨counter, List.mem_append.mpr (Or.inr
                ((hmemnew counter u).mpr ⟨rfl, prem u hadj h2⟩))⟩
          · rintro ⟨i, hm⟩
            rcases List.mem_append.mp hm with hm | hm
            · have hadj : adjFind adj u = none := (j5 u hfne).mpr ⟨i, hm⟩
              rcases hx : adjFind adj2 u with _ | vs
              · rfl
              · rw [psub u vs hx] at hadj
                exact absurd hadj (by simp)
            · exact poutnone u ((hmemnew i u).mp hm).2
        · intro i t hm
          rcases List.mem_append.mp hm with hm | hm
          · exact j5b i t hm
          · exact hblock_full t ((hmemnew i t).mp hm).2
        · intro i t u hmt hmu
          rcases List.mem_append.mp hmt with hmt | hmt <;>
            rcases List.mem_append.mp hmu with hmu | hmu
          · exact j6 i t u hmt hmu
          · have hit : i < counter := j3 i t hmt
            rw [(hmemnew i u).mp hmu |>.1] at hit
            exact absurd hit (Nat.lt_irrefl counter)
          · have hiu : i < counter := j3 i u hmu
            rw [(hmemnew i t).mp hmt |>.1] at hiu
            exact absurd hiu (Nat.lt_irrefl counter)
          · exact Relation.ReflTransGen.trans
              (linkedTo_symmetric edges (hstart_link t ((hmemnew i t).mp hmt).2))
              (hstart_link u ((hmemnew i u).mp hmu).2)
        · intro i t u hmt hlink
          rcases List.mem_append.mp hmt with hmt | hmt
          · exact List.mem_append.mpr (Or.inl (j7 i t u hmt hlink))
          · rcases (hmemnew i t).mp hmt with ⟨hi, htb⟩
            have hsu : linkedTo edges start u :=
              Relation.ReflTransGen.trans (hstart_link t htb) hlink
            exact List.mem_append.mpr (Or.inr
              ((hmemnew i u).mpr ⟨hi, hlinked_mem u hsu⟩))
        · intro i j t hmi hmj
          rcases List.mem_append.mp hmi with hmi | hmi <;>
            rcases List.mem_append.mp hmj with hmj | hmj
          · exact j8 i j t hmi hmj
          · have htb := ((hmemnew j t).mp hmj).2
            exact absurd hmi (j4 t (pkeys t htb) i)
          · have htb := ((hmemnew i t).mp hmi).2
            exact absurd hmj (j4 t (pkeys t htb) j)
          · rw [((hmemnew i t).mp hmi).1, ((hmemnew j t).mp hmj).1]

/-- C5: block-id assignment over the in-seat transfer edges, for every run of
`assign_block_ids` that completes without crashing: no trip receives two
different block ids; two trips that share a block id are linked by a chain of
in-seat transfers; a trip's whole connected component shares its block id
(so distinct components get the distinct, fresh counter values); and a trip
receives a block id IF AND ONLY IF it is an endpoint of some in-seat
transfer edge — a trip appearing in no in-seat transfer receives no block id
at all, not a fresh singleton one. -/
theorem assign_block_ids_components (edges : List (String × String))
    (out : List (Nat × String))
    (h : assignBlockIdsFromEdges edges = some out) :
    (∀ i j t, (i, t) ∈ out → (j, t) ∈ out → i = j) ∧
    (∀ i t u, (i, t) ∈ out → (i, u) ∈ out → linkedTo edges t u) ∧
    (∀ i t u, (i, t) ∈ out → linkedTo edges t u → (i, u) ∈ out) ∧
    (∀ t, (∃ i, (i, t) ∈ out) ↔ isEndpoint edges t) := by
  refine assignLoopFuel_spec edges ((get_linked_trips edges).length + 1)
    (get_linked_trips edges) 0 [] out h
    (fun u vs hx => hx) (adjKeys_nodup_get_linked edges) ?_ ?_ ?_ ?_ ?_ ?_ ?_
  · intro i t hm
    exact absurd hm (List.not_mem_nil _)
  · intro t _ i hm
    exact absurd hm (List.not_mem_nil _)
  · intro u hne
    constructor
    · intro h0
      exact absurd h0 hne
    · rintro ⟨i, hm⟩
      exact absurd hm (List.not_mem_nil _)
  · intro i t hm
    exact absurd hm (List.not_mem_nil _)
  · intro i t u hm
    exact absurd hm (List.not_mem_nil _)
  · intro i t u hm
    exact absurd hm (List.not_mem_nil _)
  · intro i j t hm
    exact absurd hm (List.not_mem_nil _)

/-- C5 counterexample: on the single transfer edge A→B the pass completes
and assigns block id 0 to A and B only — the unlinked trip "X" (which is no
edge endpoint) receives NO block id, instead of the fresh singleton the
claim demands. Moreover, on the cyclic edge set A-B-C-A the pass does not
even complete: `linked_trips.pop(trip)` raises KeyError on the second visit
of a trip, so the model returns `none`. -/
theorem assign_block_ids_skips_unlinked :
    assignBlockIdsFromEdges [("A", "B")] = some [(0, "B"), (0, "A")] ∧
    (∀ p ∈ [((0 : Nat), "B"), (0, "A")], p.2 ≠ "X") ∧
    ¬ isEndpoint [("A", "B")] "X" ∧
    assignBlockIdsFromEdges [("A", "B"), ("B", "C"), ("A", "C")] = none := by
  refine ⟨rfl, by decide, ?_, rfl⟩
  rintro ⟨e, he, h1 | h2⟩
  · rw [List.mem_singleton.mp he] at h1
    exact absurd h1 (by decide)
  · rw [List.mem_singleton.mp he] at h2
    exact absurd h2 (by decide)

/-- Witness for the C5 theorem: on the single edge A→B the run completes
with output [(0, B), (0, A)], on which the theorem's conclusions hold. -/
theorem assign_block_ids_components_witness :
    (∀ i j t, (i, t) ∈ [((0 : Nat), "B"), (0, "A")] →
      (j, t) ∈ [((0 : Nat), "B"), (0, "A")] → i = j) ∧
    (∀ t, (∃ i, (i, t) ∈ [((0 : Nat), "B"), (0, "A")]) ↔ isEndpoint [("A", "B")] t) := by
  have h : assignBlockIdsFromEdges [("A", "B")] = some [(0, "B"), (0, "A")] := rfl
  have hc := assign_block_ids_components [("A", "B")] [(0, "B"), (0, "A")] h
  exact ⟨hc.1, hc.2.2.2⟩

/-! ### Time-travel repair (`fix_timetravel.py`) -/

/-- A `Transfer` row as used by `FixTimeTravelTransfers` (the fields the
task reads or rewrites). -/
structure XTransfer where
  from_trip_id : String
  to_trip_id : String
  from_stop_id : String
  to_stop_id : String
  transfer_type : Nat
deriving DecidableEq, Repr

/-- A `stop_times` row as used by `_get_trip_start` / `_get_trip_end`:
times are `TimePoint` second counts. -/
structure STRow where
  trip_id : String
  arrival_time : Nat
  departure_time : Nat
deriving DecidableEq, Repr

/-- Mirrors `_get_trip_start`: `min(arrival_time)` over the trip's
stop-times; `none` is the `one_must` raise for a trip without times. -/
def trip_start (sts : List STRow) (trip_id : String) : Option Nat :=
  match ((sts.filter (fun r => decide (r.trip_id = trip_id))).map
      (fun r => r.arrival_time)) with
  | [] => none
  | x :: xs => some (xs.foldl Nat.min x)

/-- Mirrors `_get_trip_end`: `max(departure_time)` over the trip's
stop-times; `none` is the `one_must` raise for a trip without times. -/
def trip_end (sts : List STRow) (trip_id : String) : Option Nat :=
  match ((sts.filter (fun r => decide (r.trip_id = trip_id))).map
      (fun r => r.departure_time)) with
  | [] => none
  | x :: xs => some (xs.foldl Nat.max x)

/-- Mirrors `TimedTransfer`: the transfer with the computed from-trip end
and to-trip start times. -/
structure TimedTransfer where
  t : XTransfer
  from_trip_time : Nat
  to_trip_time : Nat
deriving DecidableEq, Repr

/-- Mirrors `TimedTransfer.time_travels`. -/
def TimedTransfer.time_travels (t : TimedTransfer) : Bool :=
  decide (t.to_trip_time < t.from_trip_time)

/-- The loop of `get_transfers_to_process` over the `transfer_type = 4`
query: computes both times for every in-seat transfer (`none` when a trip
has no stop-times) and keeps those that time-travel. -/
def buildTimed (sts : List STRow) : List XTransfer → Option (List TimedTransfer)
  | [] => some []
  | t :: rest =>
    if t.transfer_type = 4 then
      match trip_end sts t.from_trip_id, trip_start sts t.to_trip_id with
      | some fe, some ts =>
        match buildTimed sts rest with
        | some l =>
          some (if ts < fe then ⟨t, fe, ts⟩ :: l else l)
        | none => none
      | _, _ => none
    else buildTimed sts rest

/-- `datetime.date` plus one day. -/
def dateNextDay (d : PDate) : PDate :=
  if d.day < daysInMonth d.year d.month then ⟨d.year, d.month, d.day + 1⟩
  else if d.month < 12 then ⟨d.year, d.month + 1, 1⟩
  else ⟨d.year + 1, 1, 1⟩

/-- `Date.from_ymd_str`: parses "YYYY-MM-DD"; `none` is the raise on
malformed text or out-of-range components. -/
def parseYmd (s : String) : Option PDate :=
  match splitOnChar '-' s.data with
  | [ys, ms, ds] =>
    match parseNatDigits ys, parseNatDigits ms, parseNatDigits ds with
    | some y, some m, some d => mkDate (Int.ofNat y) m d
    | _, _, _ => none
  | _ => none

/-- Mirrors `TrainKey`: the calendar date and train number identifying one
train, extracted from a trip id. -/
structure TrainKey where
  date : PDate
  number : String
deriving DecidableEq, Repr

/-- Mirrors `TrainKey.extract`: `trip_id.split("_")` must give at least a
date part and a number part (`none` is the unpacking `ValueError` or the
date-parsing raise). -/
def TrainKey.extract (trip_id : String) : Option TrainKey :=
  match splitOnChar '_' trip_id.data with
  | ds :: ns :: _ =>
    match parseYmd (String.mk ds) with
    | some d => some ⟨d, String.mk ns⟩
    | none => none
  | _ => none

/-- Mirrors `TrainKey.next_day`. -/
def TrainKey.next_day (k : TrainKey) : TrainKey :=
  ⟨dateNextDay k.date, k.number⟩

/-- Mirrors `TimedTransfer.key` (both trip ids' train keys; `none` when
either extraction raises). -/
def TimedTransfer.key (t : TimedTransfer) : Option (TrainKey × TrainKey) :=
  match TrainKey.extract t.t.from_trip_id, TrainKey.extract t.t.to_trip_id with
  | some a, some b => some (a, b)
  | _, _ => none

/-- Mirrors `transfers_by_key_pair.get(k)` on the dict comprehension
`{t.key: t for t in transfers}`: the LAST transfer of the processed list
with this key (Python dict comprehensions keep the last value per key).
The dict is built ONLY from the time-travelling transfers. -/
def keyLookup (allT : List TimedTransfer) (k : TrainKey × TrainKey) :
    Option TimedTransfer :=
  (allT.filter (fun t => decide (t.key = some k))).getLast?

/-- The re-link candidate of the loop body: the next-day key's entry in the
dict, provided `next_would_be_valid` holds (same from-stop, same to-stop,
and the from-time strictly before the candidate's to-time plus 24 h). -/
def relinkTarget (allT : List TimedTransfer) (t : TimedTransfer) :
    Option TimedTransfer :=
  match t.key with
  | none => none
  | some (fk, tk) =>
    match keyLookup allT (fk.next_day, tk.next_day) with
    | none => none
    | some nt =>
      if decide (t.t.from_stop_id = nt.t.from_stop_id) &&
         decide (t.t.to_stop_id = nt.t.to_stop_id) &&
         decide (t.from_trip_time < nt.to_trip_time + 86400) then some nt
      else none

/-- Python `"_C" in s`. -/
def startsWithChars : List Char → List Char → Bool
  | [], _ => true
  | _ :: _, [] => false
  | a :: as, b :: bs => a == b && startsWithChars as bs

/-- Substring containment on character lists. -/
def hasSub (pat : List Char) : List Char → Bool
  | [] => startsWithChars pat []
  | s :: rest => startsWithChars pat (s :: rest) || hasSub pat rest

/-- One iteration of the `for t in transfers:` loop: the fixed transfers
and trips-to-remove this transfer contributes. `none` is a raise: an
unparseable train key, or the `assert "_C" in t.t.to_trip_id` failing on
the removal path. -/
def processOne (allT : List TimedTransfer) (froms : List String)
    (t : TimedTransfer) : Option (List XTransfer × List String) :=
  match t.key with
  | none => none
  | some _ =>
    match relinkTarget allT t with
    | some nt => some ([{ t.t with to_trip_id := nt.t.to_trip_id }], [])
    | none =>
      if t.t.to_trip_id ∈ froms then some ([], [])
      else if hasSub ("_C".data) t.t.to_trip_id.data then
        some ([], [t.t.to_trip_id])
      else none

/-- The whole `for t in transfers:` loop, accumulating `fixed_transfers`
and `trips_to_remove` in order. -/
def processAll (allT : List TimedTransfer) (froms : List String) :
    List TimedTransfer → Option (List XTransfer × List String)
  | [] => some ([], [])
  | t :: rest =>
    match processOne allT froms t with
    | none => none
    | some (f1, r1) =>
      match processAll allT froms rest with
      | none => none
      | some (f2, r2) => some (f1 ++ f2, r1 ++ r2)

/-- Mirrors `FixTimeTravelTransfers.execute` over the transfers table, the
trips table (as ids) and the stop-times table: returns the resulting
transfers and trips, or `none` when the task raises. The final transaction
deletes every transfer whose (from, to) trip-id pair matches a processed
transfer, inserts the fixed transfers, and deletes the removed trips. -/
def executeFix (transfers : List XTransfer) (trips : List String)
    (sts : List STRow) : Option (List XTransfer × List String) :=
  let froms := transfers.map (fun t => t.from_trip_id)
  match buildTimed sts transfers with
  | none => none
  | some toProcess =>
    match processAll toProcess froms toProcess with
    | none => none
    | some (fixed, removed) =>
      some ((transfers.filter (fun tr => !(toProcess.any (fun t =>
          decide (tr.from_trip_id = t.t.from_trip_id) &&
          decide (tr.to_trip_id = t.t.to_trip_id))))) ++ fixed,
        trips.filter (fun id => !decide (id ∈ removed)))

theorem buildTimed_mem (sts : List STRow) :
    ∀ l out, buildTimed sts l = some out →
    ∀ tt : TimedTransfer, tt ∈ out ↔ tt.t ∈ l ∧ tt.t.transfer_type = 4 ∧
      trip_end sts tt.t.from_trip_id = some tt.from_trip_time ∧
      trip_start sts tt.t.to_trip_id = some tt.to_trip_time ∧
      tt.to_trip_time < tt.from_trip_time := by
  intro l
  induction l with
  | nil =>
    intro out h tt
    simp only [buildTimed] at h
    injection h with h
    subst h
    simp
  | cons t rest ih =>
    intro out h tt
    simp only [buildTimed] at h
    by_cases ht4 : t.transfer_type = 4
    · rw [if_pos ht4] at h
      rcases hfe : trip_end sts t.from_trip_id with _ | fe
      · simp only [hfe] at h
        exact absurd h (by simp)
      · rcases hts : trip_start sts t.to_trip_id with _ | ts2
        · simp only [hfe, hts] at h
          exact absurd h (by simp)
        · simp only [hfe, hts] at h
          rcases hrec : buildTimed sts rest with _ | l2
          · simp only [hrec] at h
            exact absurd h (by simp)
          · simp only [hrec] at h
            injection h with h
            subst h
            rcases tt with ⟨tx, tf, tts⟩
            by_cases htr : ts2 < fe
            · rw [if_pos htr]
              simp only [List.mem_cons, TimedTransfer.mk.injEq]
              constructor
              · rintro (⟨h1, h2, h3⟩ | hm)
                · subst h1; subst h2; subst h3
                  exact ⟨Or.inl rfl, ht4, hfe, hts, htr⟩
                · rcases (ih l2 hrec ⟨tx, tf, tts⟩).mp hm with ⟨hmem, h4, he, hs, hlt⟩
                  exact ⟨Or.inr hmem, h4, he, hs, hlt⟩
              · rintro ⟨hmem | hmem, h4, he, hs, hlt⟩
                · subst hmem
                  rw [hfe] at he
                  rw [hts] at hs
                  injection he with he
                  injection hs with hs
                  exact Or.inl ⟨rfl, he.symm, hs.symm⟩
                · exact Or.inr ((ih l2 hrec ⟨tx, tf, tts⟩).mpr ⟨hmem, h4, he, hs, hlt⟩)
            · rw [if_neg htr]
              rw [ih l2 hrec ⟨tx, tf, tts⟩]
              simp only [List.mem_cons]
              constructor
              · rintro ⟨hmem, h4, he, hs, hlt⟩
                exact ⟨Or.inr hmem, h4, he, hs, hlt⟩
              · rintro ⟨hmem | hmem, h4, he, hs, hlt⟩
                · subst hmem
                  rw [hfe] at he
                  rw [hts] at hs
                  injection he with he
                  injection hs with hs
                  rw [← he, ← hs] at hlt
                  exact absurd hlt htr
                · exact ⟨hmem, h4, he, hs, hlt⟩
    · rw [if_neg ht4] at h
      rw [ih out h tt]
      simp only [List.mem_cons]
      constructor
      · rintro ⟨hmem, h4, he, hs, hlt⟩
        exact ⟨Or.inr hmem, h4, he, hs, hlt⟩
      · rintro ⟨hmem | hmem, h4, he, hs, hlt⟩
        · rw [hmem] at h4
          exact absurd h4 ht4
        · exact ⟨hmem, h4, he, hs, hlt⟩

theorem processOne_of_relink (allT : List TimedTransfer) (froms : List String)
    (t nt : TimedTransfer) (h : relinkTarget allT t = some nt) :
    processOne allT froms t =
      some ([{ t.t with to_trip_id := nt.t.to_trip_id }], []) := by
  unfold processOne
  rcases hk : t.key with _ | k
  · unfold relinkTarget at h
    simp only [hk] at h
    exact absurd h (by simp)
  · simp only [hk, h]

theorem processOne_cases (allT : List TimedTransfer) (froms : List String)
    (t : TimedTransfer) (fr : List XTransfer × List String)
    (h : processOne allT froms t = some fr) :
    (∃ nt, relinkTarget allT t = some nt ∧
      fr = ([{ t.t with to_trip_id := nt.t.to_trip_id }], [])) ∨
    (relinkTarget allT t = none ∧
      ((fr = ([], []) ∧ t.t.to_trip_id ∈ froms) ∨
       (fr = ([], [t.t.to_trip_id]) ∧ t.t.to_trip_id ∉ froms))) := by
  unfold processOne at h
  rcases hk : t.key with _ | k
  · simp only [hk] at h
    exact absurd h (by simp)
  · simp only [hk] at h
    rcases hr : relinkTarget allT t with _ | nt
    · simp only [hr] at h
      by_cases hm : t.t.to_trip_id ∈ froms
      · rw [if_pos hm] at h
        injection h with h
        exact Or.inr ⟨rfl, Or.inl ⟨h.symm, hm⟩⟩
      · rw [if_neg hm] at h
        by_cases hc : hasSub ("_C".data) t.t.to_trip_id.data = true
        · rw [if_pos hc] at h
          injection h with h
          exact Or.inr ⟨rfl, Or.inr ⟨h.symm, hm⟩⟩
        · rw [if_neg hc] at h
          exact absurd h (by simp)
    · simp only [hr] at h
      injection h with h
      exact Or.inl ⟨nt, rfl, h.symm⟩

theorem processAll_some (allT : List TimedTransfer) (froms : List String) :
    ∀ l fixed removed, processAll allT froms l = some (fixed, removed) →
    ((∀ t ∈ l, ∃ fr, processOne allT froms t = some fr) ∧
     (∀ tr, tr ∈ fixed ↔
       ∃ t ∈ l, ∃ fr, processOne allT froms t = some fr ∧ tr ∈ fr.1) ∧
     (∀ id, id ∈ removed ↔
       ∃ t ∈ l, ∃ fr, processOne allT froms t = some fr ∧ id ∈ fr.2)) := by
  intro l
  induction l with
  | nil =>
    intro fixed removed h
    simp only [processAll] at h
    injection h with h
    have h1 : ([] : List XTransfer) = fixed := congrArg Prod.fst h
    have h2 : ([] : List String) = removed := congrArg Prod.snd h
    subst h1
    subst h2
    refine ⟨fun t ht => absurd ht (List.not_mem_nil t), ?_, ?_⟩
    · intro tr
      simp
    · intro id
      simp
  | cons t rest ih =>
    intro fixed removed h
    simp only [processAll] at h
    rcases hp : processOne allT froms t with _ | fr1
    · simp only [hp] at h
      exact absurd h (by simp)
    · rcases fr1 with ⟨f1, r1⟩
      simp only [hp] at h
      rcases hr : processAll allT froms rest with _ | fr2
      · simp only [hr] at h
        exact absurd h (by simp)
      · rcases fr2 with ⟨f2, r2⟩
        simp only [hr] at h
        injection h with h
        have h1 : f1 ++ f2 = fixed := congrArg Prod.fst h
        have h2 : r1 ++ r2 = removed := congrArg Prod.snd h
        subst h1
        subst h2
        rcases ih f2 r2 hr with ⟨ih1, ih2, ih3⟩
        refine ⟨?_, ?_, ?_⟩
        · intro t' ht'
          rcases List.mem_cons.mp ht' with ht' | ht'
          · exact ⟨(f1, r1), by rw [ht']; exact hp⟩
          · exact ih1 t' ht'
        · intro tr
          constructor
          · intro hm
            rcases List.mem_append.mp hm with hm | hm
            · exact ⟨t, List.mem_cons_self t rest, (f1, r1), hp, hm⟩
            · rcases (ih2 tr).mp hm with ⟨t', ht', fr, hfr, hmem⟩
              exact ⟨t', List.mem_cons_of_mem t ht', fr, hfr, hmem⟩
          · rintro ⟨t', ht', fr, hfr, hmem⟩
            rcases List.mem_cons.mp ht' with ht' | ht'
            · rw [ht'] at hfr
              rw [hp] at hfr
              injection hfr with hfr
              rw [← hfr] at hmem
              exact List.mem_append.mpr (Or.inl hmem)
            · exact List.mem_append.mpr (Or.inr ((ih2 tr).mpr ⟨t', ht', fr, hfr, hmem⟩))
        · intro id
          constructor
          · intro hm
            rcases List.mem_append.mp hm with hm | hm
            · exact ⟨t, List.mem_cons_self t rest, (f1, r1), hp, hm⟩
            · rcases (ih3 id).mp hm with ⟨t', ht', fr, hfr, hmem⟩
              exact ⟨t', List.mem_cons_of_mem t ht', fr, hfr, hmem⟩
          · rintro ⟨t', ht', fr, hfr, hmem⟩
            rcases List.mem_cons.mp ht' with ht' | ht'
            · rw [ht'] at hfr
              rw [hp] at hfr
              injection hfr with hfr
              rw [← hfr] at hmem
              exact List.mem_append.mpr (Or.inl hmem)
            · exact List.mem_append.mpr (Or.inr ((ih3 id).mpr ⟨t', ht', fr, hfr, hmem⟩))

/-- C8: what the time-travel repair pass actually does, for every run that
completes without raising. The processed transfers are exactly the
`transfer_type = 4` transfers whose to-trip start (min arrival) is strictly
earlier than the from-trip end (max departure). The resulting transfers are
exactly: the original transfers whose (from, to) trip-id pair matches no
processed transfer, plus one re-targeted copy of each processed transfer
whose re-link lookup succeeds — where the lookup searches ONLY the
processed (time-travelling) transfers for the next-day key, taking the
last one and requiring equal stop ids and from-time < to-time + 24 h. The
resulting trips are the original ones minus the to-trips of processed
transfers that could not be re-linked and are no transfer's from-trip. -/
theorem fix_timetravel_execute (transfers : List XTransfer) (trips : List String)
    (sts : List STRow) (nT : List XTransfer) (nTr : List String)
    (h : executeFix transfers trips sts = some (nT, nTr)) :
    ∃ toProcess,
      buildTimed sts transfers = some toProcess ∧
      (∀ tt : TimedTransfer, tt ∈ toProcess ↔ tt.t ∈ transfers ∧
        tt.t.transfer_type = 4 ∧
        trip_end sts tt.t.from_trip_id = some tt.from_trip_time ∧
        trip_start sts tt.t.to_trip_id = some tt.to_trip_time ∧
        tt.to_trip_time < tt.from_trip_time) ∧
      (∀ tr : XTransfer, tr ∈ nT ↔
        ((tr ∈ transfers ∧ ¬ ∃ t ∈ toProcess, tr.from_trip_id = t.t.from_trip_id ∧
            tr.to_trip_id = t.t.to_trip_id) ∨
         (∃ t ∈ toProcess, ∃ nt, relinkTarget toProcess t = some nt ∧
            tr = { t.t with to_trip_id := nt.t.to_trip_id }))) ∧
      (∀ id : String, id ∈ nTr ↔ (id ∈ trips ∧ ¬ ∃ t ∈ toProcess,
        relinkTarget toProcess t = none ∧
        t.t.to_trip_id ∉ transfers.map (fun x => x.from_trip_id) ∧
        id = t.t.to_trip_id)) := by
  simp only [executeFix] at h
  rcases hb : buildTimed sts transfers with _ | toProcess
  · simp only [hb] at h
    exact absurd h (by simp)
  · simp only [hb] at h
    rcases hpa : processAll toProcess (transfers.map (fun t => t.from_trip_id)) toProcess
      with _ | fr
    · simp only [hpa] at h
      exact absurd h (by simp)
    · rcases fr with ⟨fixed, removed⟩
      simp only [hpa] at h
      injection h with h
      have hT : (transfers.filter (fun tr => !(toProcess.any (fun t =>
          decide (tr.from_trip_id = t.t.from_trip_id) &&
          decide (tr.to_trip_id = t.t.to_trip_id))))) ++ fixed = nT :=
        congrArg Prod.fst h
      have hR : trips.filter (fun id => !decide (id ∈ removed)) = nTr :=
        congrArg Prod.snd h
      rcases processAll_some toProcess (transfers.map (fun t => t.from_trip_id))
        toProcess fixed removed hpa with ⟨pa1, pa2, pa3⟩
      have hkept : ∀ tr : XTransfer,
          tr ∈ transfers.filter (fun tr => !(toProcess.any (fun t =>
            decide (tr.from_trip_id = t.t.from_trip_id) &&
            decide (tr.to_trip_id = t.t.to_trip_id)))) ↔
          (tr ∈ transfers ∧ ¬ ∃ t ∈ toProcess, tr.from_trip_id = t.t.from_trip_id ∧
            tr.to_trip_id = t.t.to_trip_id) := by
        intro tr
        rw [List.mem_filter]
        constructor
        · rintro ⟨h1, h2⟩
          refine ⟨h1, ?_⟩
          rintro ⟨t, ht, he1, he2⟩
          have hany : toProcess.any (fun t =>
              decide (tr.from_trip_id = t.t.from_trip_id) &&
              decide (tr.to_trip_id = t.t.to_trip_id)) = true :=
            List.any_eq_true.mpr ⟨t, ht, by rw [he1, he2]; simp⟩
          rw [hany] at h2
          exact absurd h2 (by simp)
        · rintro ⟨h1, h2⟩
          refine ⟨h1, ?_⟩
          rcases hx : toProcess.any (fun t =>
              decide (tr.from_trip_id = t.t.from_trip_id) &&
              decide (tr.to_trip_id = t.t.to_trip_id)) with _ | _
          · rfl
          · rcases List.any_eq_true.mp hx with ⟨t, ht, hbx⟩
            rw [Bool.and_eq_true, decide_eq_true_eq, decide_eq_true_eq] at hbx
            exact absurd ⟨t, ht, hbx.1, hbx.2⟩ h2
      have hfix : ∀ tr : XTransfer, tr ∈ fixed ↔
          ∃ t ∈ toProcess, ∃ nt, relinkTarget toProcess t = some nt ∧
            tr = { t.t with to_trip_id := nt.t.to_trip_id } := by
        intro tr
        rw [pa2 tr]
        constructor
        · rintro ⟨t, ht, fr', hfr', hmem⟩
          rcases processOne_cases _ _ _ _ hfr' with ⟨nt, hnt, hfr⟩ | ⟨_, hcase⟩
          · rw [hfr] at hmem
            simp only [List.mem_singleton] at hmem
            exact ⟨t, ht, nt, hnt, hmem⟩
          · rcases hcase with ⟨hfr, _⟩ | ⟨hfr, _⟩ <;> rw [hfr] at hmem <;>
              exact absurd hmem (by simp)
        · rintro ⟨t, ht, nt, hnt, htr⟩
          refine ⟨t, ht, _,
            processOne_of_relink toProcess (transfers.map (fun t => t.from_trip_id)) t nt hnt,
            ?_⟩
          rw [htr]
          simp
      have hrem : ∀ id : String, id ∈ removed ↔
          ∃ t ∈ toProcess, relinkTarget toProcess t = none ∧
            t.t.to_trip_id ∉ transfers.map (fun x => x.from_trip_id) ∧
            id = t.t.to_trip_id := by
        intro id
        rw [pa3 id]
        constructor
        · rintro ⟨t, ht, fr', hfr', hmem⟩
          rcases processOne_cases _ _ _ _ hfr' with ⟨nt, _, hfr⟩ | ⟨hnone, hcase⟩
          · rw [hfr] at hmem
            exact absurd hmem (by simp)
          · rcases hcase with ⟨hfr, _⟩ | ⟨hfr, hnm⟩
            · rw [hfr] at hmem
              exact absurd hmem (by simp)
            · rw [hfr] at hmem
              simp only [List.mem_singleton] at hmem
              exact ⟨t, ht, hnone, hnm, hmem⟩
        · rintro ⟨t, ht, hnone, hnm, hid⟩
          rcases pa1 t ht with ⟨fr', hfr'⟩
          rcases processOne_cases _ _ _ _ hfr' with ⟨nt, hnt, _⟩ | ⟨_, hcase⟩
          · rw [hnone] at hnt
            exact absurd hnt (by simp)
          · rcases hcase with ⟨hfr, hmemf⟩ | ⟨hfr, _⟩
            · exact absurd hmemf hnm
            · refine ⟨t, ht, fr', hfr', ?_⟩
              rw [hfr, hid]
              simp
      refine ⟨toProcess, rfl, buildTimed_mem sts transfers toProcess hb, ?_, ?_⟩
      · intro tr
        rw [← hT, List.mem_append, hkept tr, hfix tr]
      · intro id
        rw [← hR, List.mem_filter]
        constructor
        · rintro ⟨h1, h2⟩
          refine ⟨h1, ?_⟩
          intro hex
          have hm : id ∈ removed := (hrem id).mpr hex
          rw [Bool.not_eq_true', decide_eq_false_iff_not] at h2
          exact h2 hm
        · rintro ⟨h1, h2⟩
          refine ⟨h1, ?_⟩
          rw [Bool.not_eq_true', decide_eq_false_iff_not]
          exact fun hm => h2 ((hrem id).mp hm)

/-- Day-1 in-seat transfer of the C8 examples (time-travelling: its to-trip
starts at 50, before its from-trip ends at 100). -/
def c8tr1 : XTransfer :=
  ⟨"2024-01-01_100_C0", "2024-01-01_200_C0", "S1", "S2", 4⟩

/-- Day-2 counterpart between the same two trains with the same stops. -/
def c8tr2 : XTransfer :=
  ⟨"2024-01-02_100_C0", "2024-01-02_200_C0", "S1", "S2", 4⟩

/-- Stop-times making the day-1 transfer time-travel (50 < 100) and the
day-2 one fine (95 ≥ 90). -/
def c8sts : List STRow :=
  [⟨"2024-01-01_100_C0", 0, 100⟩, ⟨"2024-01-01_200_C0", 50, 60⟩,
   ⟨"2024-01-02_100_C0", 0, 90⟩, ⟨"2024-01-02_200_C0", 95, 100⟩]

/-- The four trips of the C8 examples. -/
def c8trips : List String :=
  ["2024-01-01_100_C0", "2024-01-01_200_C0", "2024-01-02_100_C0",
   "2024-01-02_200_C0"]

/-- Stop-times for the C8 witness: now the day-2 transfer time-travels too
(to-start 10 < from-end 90), so it lands in the processed list and the
day-1 transfer can be re-linked to it. -/
def c8wsts : List STRow :=
  [⟨"2024-01-01_100_C0", 0, 100⟩, ⟨"2024-01-01_200_C0", 50, 60⟩,
   ⟨"2024-01-02_100_C0", 0, 90⟩, ⟨"2024-01-02_200_C0", 10, 20⟩]

/-- C8 counterexample: the claim's re-link condition holds — a transfer
between the same two train numbers exists one calendar day later with
equal stop ids and acceptable timing (100 < 95 + 86400) — yet the code
does NOT re-link, because its lookup dict is built only from the
time-travelling transfers and the day-2 transfer is healthy; the broken
to-trip "2024-01-01_200_C0" is deleted instead. -/
theorem fix_timetravel_ignores_unbroken_candidate :
    executeFix [c8tr1, c8tr2] c8trips c8sts =
      some ([c8tr2],
        ["2024-01-01_100_C0", "2024-01-02_100_C0", "2024-01-02_200_C0"]) ∧
    (∃ k1 k2, TrainKey.extract c8tr1.from_trip_id = some k1 ∧
      TrainKey.extract c8tr2.from_trip_id = some (TrainKey.next_day k1) ∧
      TrainKey.extract c8tr1.to_trip_id = some k2 ∧
      TrainKey.extract c8tr2.to_trip_id = some (TrainKey.next_day k2)) ∧
    c8tr1.from_stop_id = c8tr2.from_stop_id ∧
    c8tr1.to_stop_id = c8tr2.to_stop_id ∧
    (∃ fe ts, trip_end c8sts c8tr1.from_trip_id = some fe ∧
      trip_start c8sts c8tr2.to_trip_id = some ts ∧ fe < ts + 86400) ∧
    "2024-01-01_200_C0" ∉
      ["2024-01-01_100_C0", "2024-01-02_100_C0", "2024-01-02_200_C0"] := by
  refine ⟨rfl,
    ⟨⟨⟨2024, 1, 1⟩, "100"⟩, ⟨⟨2024, 1, 1⟩, "200"⟩, rfl, rfl, rfl, rfl⟩,
    rfl, rfl, ⟨100, 95, rfl, rfl, by decide⟩, by decide⟩

/-- Witness for the C8 theorem: with both days' transfers time-travelling,
the run completes, and the resulting transfer list is characterized by the
theorem — the day-1 transfer is re-linked to the day-2 to-trip. -/
theorem fix_timetravel_execute_witness :
    ∃ toProcess,
      buildTimed c8wsts [c8tr1, c8tr2] = some toProcess ∧
      (∀ tr : XTransfer,
        tr ∈ [({ c8tr1 with to_trip_id := "2024-01-02_200_C0" } : XTransfer)] ↔
        ((tr ∈ [c8tr1, c8tr2] ∧ ¬ ∃ t ∈ toProcess,
            tr.from_trip_id = t.t.from_trip_id ∧
            tr.to_trip_id = t.t.to_trip_id) ∨
         (∃ t ∈ toProcess, ∃ nt, relinkTarget toProcess t = some nt ∧
            tr = { t.t with to_trip_id := nt.t.to_trip_id }))) := by
  have h : executeFix [c8tr1, c8tr2] c8trips c8wsts =
      some ([{ c8tr1 with to_trip_id := "2024-01-02_200_C0" }],
        ["2024-01-01_100_C0", "2024-01-01_200_C0", "2024-01-02_100_C0"]) := rfl
  rcases fix_timetravel_execute _ _ _ _ _ h with ⟨tp, h1, _, h3, _⟩
  exact ⟨tp, h1, h3⟩
